import Mathlib

/-!
# Chronolinker: a shallow embedding of the temporal link-maintenance engine

This development embeds the core of the Chronolinker Obsidian plugin
(`src/utils/dateUtils.ts`, `src/utils/fileUtils.ts`,
`src/services/NoteManager.ts`, `src/services/BelongingNoteManager.ts`)
into Lean and proves/refutes the specified properties.

Dates are modelled at calendar-day granularity: a moment value carrying a
valid date is a `Date` (year : Int, month 0-11 as in moment.js, day 1-31);
an invalid moment object (which is truthy in JS, distinct from `null`) is
`MVal.invalid`.  `Option MVal` models `moment.Moment | null`.
Moment arithmetic (`add`/`subtract`/`startOf`/`endOf`) is modelled by
explicit calendar functions; month addition clamps the day-of-month exactly
as moment.js does.  Chronological comparison (`isSameOrAfter`/`isSameOrBefore`
at day granularity, `valueOf` ordering) is modelled by the rata-die number
`toRD`.
-/

namespace Chronolinker

/-- A calendar date in moment.js conventions: `month` is 0-based (0 = January),
`day` is 1-based. -/
structure Date where
  year : Int
  month : Nat
  day : Nat
  deriving DecidableEq, Repr

/-- Gregorian leap-year rule, as implemented by moment.js / JS `Date`. -/
def isLeap (y : Int) : Bool :=
  (y % 4 == 0 && y % 100 != 0) || y % 400 == 0

/-- Number of days in month `m` (0-based) of year `y`. -/
def daysInMonth (y : Int) (m : Nat) : Nat :=
  match m with
  | 1 => if isLeap y then 29 else 28
  | 3 => 30
  | 5 => 30
  | 8 => 30
  | 10 => 30
  | _ => 31

/-- A `Date` that denotes an actual calendar day. -/
def Valid : Date → Prop
  | ⟨y, m, dd⟩ => m ≤ 11 ∧ 1 ≤ dd ∧ dd ≤ daysInMonth y m

instance (d : Date) : Decidable (Valid d) := by
  obtain ⟨y, m, dd⟩ := d
  simp only [Valid]
  infer_instance

/-- Calendar successor (what `moment.add(1, 'day')` does on a valid date). -/
def nextDay : Date → Date
  | ⟨y, m, dd⟩ =>
    if dd < daysInMonth y m then ⟨y, m, dd + 1⟩
    else if m < 11 then ⟨y, m + 1, 1⟩
    else ⟨y + 1, 0, 1⟩

/-- Calendar predecessor (what `moment.subtract(1, 'day')` does). -/
def prevDay : Date → Date
  | ⟨y, m, dd⟩ =>
    if 1 < dd then ⟨y, m, dd - 1⟩
    else if 0 < m then ⟨y, m - 1, daysInMonth y (m - 1)⟩
    else ⟨y - 1, 11, 31⟩

/-- `n`-fold day addition (`moment.add(n, 'days')`, `add(1,'week')` = 7 days). -/
def addDaysN (d : Date) : Nat → Date
  | 0 => d
  | n + 1 => nextDay (addDaysN d n)

/-- `n`-fold day subtraction. -/
def subDaysN (d : Date) : Nat → Date
  | 0 => d
  | n + 1 => prevDay (subDaysN d n)

/-- Month addition with day-of-month clamping, exactly what
`moment.add(k, 'month')` does: the target month is `month + k` (overflowing
into the year), and the day is clamped to the length of the target month. -/
def addMonths : Date → Nat → Date
  | ⟨y, m, dd⟩, k =>
    ⟨y + ((m + k) / 12 : Nat), (m + k) % 12,
     min dd (daysInMonth (y + ((m + k) / 12 : Nat)) ((m + k) % 12))⟩

/-- Month subtraction with clamping (`moment.subtract(k, 'month')`, used with
`k ≤ 12`). -/
def subMonths : Date → Nat → Date
  | ⟨y, m, dd⟩, k =>
    ⟨y + ((m + 12 - k) / 12 : Nat) - 1, (m + 12 - k) % 12,
     min dd (daysInMonth (y + ((m + 12 - k) / 12 : Nat) - 1) ((m + 12 - k) % 12))⟩

/-- Year addition with clamping (`moment.add(k, 'year')`: Feb 29 → Feb 28). -/
def addYears : Date → Int → Date
  | ⟨y, m, dd⟩, k => ⟨y + k, m, min dd (daysInMonth (y + k) m)⟩

/-- Count of leap years in the interval `[0, y)` (negative for `y < 0`):
`⌈y/4⌉ - ⌈y/100⌉ + ⌈y/400⌉`, with ceilings written as floor divisions
(Lean's `Int./` is floor division for positive divisors). -/
def leapsBefore (y : Int) : Int :=
  (y + 3) / 4 - (y + 99) / 100 + (y + 399) / 400

/-- Days from the start of year `y` to the start of month `m` (0-based). -/
def daysBeforeMonth (y : Int) (m : Nat) : Nat :=
  let l : Nat := if isLeap y then 1 else 0
  match m with
  | 0 => 0
  | 1 => 31
  | 2 => 59 + l
  | 3 => 90 + l
  | 4 => 120 + l
  | 5 => 151 + l
  | 6 => 181 + l
  | 7 => 212 + l
  | 8 => 243 + l
  | 9 => 273 + l
  | 10 => 304 + l
  | _ => 334 + l

/-- Rata-die number: days since 0000-01-01 (proleptic Gregorian).  Two valid
dates compare chronologically (moment `valueOf`/`isSameOrAfter` order at day
granularity) exactly as their `toRD` values compare. -/
def toRD (d : Date) : Int :=
  365 * d.year + leapsBefore d.year + (daysBeforeMonth d.year d.month : Int) + d.day - 1

/-- Day of week, moment.js convention for the default (en) locale:
0 = Sunday … 6 = Saturday.  0000-01-01 (rata die 0) is a Saturday. -/
def dow (d : Date) : Nat := ((toRD d + 6) % 7).toNat

/-- `moment.startOf('week')` in the default locale: the Sunday on or before
the date. -/
def startOfWeek (d : Date) : Date := subDaysN d (dow d)

/-- Chronological order on dates, i.e. the order moment's `isSameOrBefore`
imposes at day granularity. -/
def dateLe (a b : Date) : Prop := toRD a ≤ toRD b

instance (a b : Date) : Decidable (dateLe a b) := by
  unfold dateLe; infer_instance

/-! ## Basic calendar lemmas -/

theorem daysInMonth_pos (y : Int) (m : Nat) : 1 ≤ daysInMonth y m := by
  unfold daysInMonth
  split <;> first | omega | (split <;> omega)

theorem daysInMonth_le_31 (y : Int) (m : Nat) : daysInMonth y m ≤ 31 := by
  unfold daysInMonth
  split <;> first | omega | (split <;> omega)

theorem daysInMonth_eleven (y : Int) : daysInMonth y 11 = 31 := rfl

theorem nextDay_valid {d : Date} (h : Valid d) : Valid (nextDay d) := by
  obtain ⟨y, m, dd⟩ := d
  simp only [Valid] at h
  obtain ⟨hm, hd1, hd2⟩ := h
  simp only [nextDay]
  split_ifs with h1 h2 <;> simp only [Valid]
  · exact ⟨hm, by omega, by omega⟩
  · exact ⟨by omega, by omega, daysInMonth_pos _ _⟩
  · exact ⟨by omega, by omega, by show (1 : Nat) ≤ 31; omega⟩

theorem prevDay_valid {d : Date} (h : Valid d) : Valid (prevDay d) := by
  obtain ⟨y, m, dd⟩ := d
  simp only [Valid] at h
  obtain ⟨hm, hd1, hd2⟩ := h
  simp only [prevDay]
  split_ifs with h1 h2 <;> simp only [Valid]
  · exact ⟨hm, by omega, by omega⟩
  · exact ⟨by omega, daysInMonth_pos _ _, le_refl _⟩
  · exact ⟨by omega, by omega, by rw [daysInMonth_eleven]⟩

theorem prevDay_nextDay {d : Date} (h : Valid d) : prevDay (nextDay d) = d := by
  obtain ⟨y, m, dd⟩ := d
  simp only [Valid] at h
  obtain ⟨hm, hd1, hd2⟩ := h
  simp only [nextDay]
  split_ifs with h1 h2
  · simp only [prevDay]
    split_ifs with g1 g2
    · simp only [Date.mk.injEq, true_and, and_true]; omega
    · exfalso; omega
    · exfalso; omega
  · simp only [prevDay]
    split_ifs with g1 g2
    · exfalso; omega
    · simp only [Date.mk.injEq, Nat.add_sub_cancel, true_and, and_true]
      omega
    · exfalso; omega
  · have hm11 : m = 11 := by omega
    subst hm11
    rw [daysInMonth_eleven] at h1 hd2
    simp only [prevDay]
    split_ifs with g1 g2
    · exfalso; omega
    · exfalso; omega
    · simp only [Date.mk.injEq, true_and, and_true]
      omega

theorem nextDay_prevDay {d : Date} (h : Valid d) : nextDay (prevDay d) = d := by
  obtain ⟨y, m, dd⟩ := d
  simp only [Valid] at h
  obtain ⟨hm, hd1, hd2⟩ := h
  simp only [prevDay]
  split_ifs with h1 h2
  · simp only [nextDay]
    split_ifs with g1 g2
    · simp only [Date.mk.injEq, true_and, and_true]; omega
    · exfalso; omega
    · exfalso; omega
  · simp only [nextDay]
    split_ifs with g1 g2
    · exfalso; omega
    · simp only [Date.mk.injEq, true_and, and_true]
      omega
    · exfalso; omega
  · have hm0 : m = 0 := by omega
    have hdd : dd = 1 := by omega
    subst hm0; subst hdd
    simp only [nextDay]
    rw [daysInMonth_eleven]
    split_ifs with g1 g2
    · exfalso; omega
    · exfalso; omega
    · simp only [Date.mk.injEq, true_and, and_true]
      omega

/-! ## Rata-die arithmetic -/

theorem isLeap_iff (y : Int) :
    isLeap y = true ↔ ((y % 4 = 0 ∧ y % 100 ≠ 0) ∨ y % 400 = 0) := by
  simp [isLeap, Bool.or_eq_true, Bool.and_eq_true, beq_iff_eq, bne_iff_ne]

theorem leapsBefore_succ (y : Int) :
    leapsBefore (y + 1) = leapsBefore y + (if isLeap y then 1 else 0) := by
  have hiff := isLeap_iff y
  simp only [leapsBefore]
  split_ifs with h
  · rcases hiff.mp h with ⟨h4, h100⟩ | h400 <;> omega
  · have h' : ¬((y % 4 = 0 ∧ y % 100 ≠ 0) ∨ y % 400 = 0) := fun hp => h (hiff.mpr hp)
    omega

theorem daysBeforeMonth_succ (y : Int) {m : Nat} (h : m ≤ 10) :
    daysBeforeMonth y (m + 1) = daysBeforeMonth y m + daysInMonth y m := by
  interval_cases m <;> simp [daysBeforeMonth, daysInMonth] <;> split_ifs <;> omega

theorem daysBeforeMonth_eleven (y : Int) :
    daysBeforeMonth y 11 = 334 + (if isLeap y then 1 else 0) := rfl

theorem daysBeforeMonth_zero (y : Int) : daysBeforeMonth y 0 = 0 := rfl

theorem daysBeforeMonth_lt (y : Int) {m1 m2 : Nat} (h12 : m1 < m2) (h2 : m2 ≤ 11) :
    daysBeforeMonth y m1 + daysInMonth y m1 ≤ daysBeforeMonth y m2 := by
  induction m2 with
  | zero => omega
  | succ n ih =>
    rcases (show m1 < n ∨ m1 = n by omega) with h | h
    · have hn := ih h (by omega)
      have hs := daysBeforeMonth_succ y (show n ≤ 10 by omega)
      have hp := daysInMonth_pos y n
      omega
    · subst h
      rw [daysBeforeMonth_succ y (show m1 ≤ 10 by omega)]

theorem daysBeforeMonth_add_le (y : Int) {m : Nat} (h : m ≤ 11) :
    daysBeforeMonth y m + daysInMonth y m ≤ 365 + (if isLeap y then 1 else 0) := by
  interval_cases m <;> simp [daysBeforeMonth, daysInMonth] <;> split_ifs <;> omega

theorem toRD_nextDay {d : Date} (h : Valid d) : toRD (nextDay d) = toRD d + 1 := by
  obtain ⟨y, m, dd⟩ := d
  simp only [Valid] at h
  obtain ⟨hm, hd1, hd2⟩ := h
  simp only [nextDay]
  split_ifs with h1 h2
  · simp only [toRD]
    omega
  · have hs := daysBeforeMonth_succ y (show m ≤ 10 by omega)
    simp only [toRD]
    omega
  · have hm11 : m = 11 := by omega
    subst hm11
    rw [daysInMonth_eleven] at h1 hd2
    have hdd : dd = 31 := by omega
    subst hdd
    have hls := leapsBefore_succ y
    simp only [toRD, daysBeforeMonth_eleven, daysBeforeMonth_zero]
    split_ifs at hls ⊢ <;> omega

theorem toRD_prevDay {d : Date} (h : Valid d) : toRD (prevDay d) = toRD d - 1 := by
  have h2 := toRD_nextDay (prevDay_valid h)
  rw [nextDay_prevDay h] at h2
  omega

theorem addDaysN_valid {d : Date} (h : Valid d) (n : Nat) : Valid (addDaysN d n) := by
  induction n with
  | zero => exact h
  | succ n ih => exact nextDay_valid ih

theorem subDaysN_valid {d : Date} (h : Valid d) (n : Nat) : Valid (subDaysN d n) := by
  induction n with
  | zero => exact h
  | succ n ih => exact prevDay_valid ih

theorem toRD_addDaysN {d : Date} (h : Valid d) (n : Nat) :
    toRD (addDaysN d n) = toRD d + n := by
  induction n with
  | zero => simp [addDaysN]
  | succ n ih =>
    have := toRD_nextDay (addDaysN_valid h n)
    simp only [addDaysN]
    omega

theorem toRD_subDaysN {d : Date} (h : Valid d) (n : Nat) :
    toRD (subDaysN d n) = toRD d - n := by
  induction n with
  | zero => simp [subDaysN]
  | succ n ih =>
    have := toRD_prevDay (subDaysN_valid h n)
    simp only [subDaysN]
    omega

theorem subDaysN_prevDay_comm (d : Date) (n : Nat) :
    subDaysN (prevDay d) n = prevDay (subDaysN d n) := by
  induction n with
  | zero => rfl
  | succ n ih => simp only [subDaysN, ih]

theorem subDaysN_addDaysN {d : Date} (h : Valid d) (n : Nat) :
    subDaysN (addDaysN d n) n = d := by
  induction n with
  | zero => rfl
  | succ n ih =>
    have hv := addDaysN_valid h n
    calc subDaysN (addDaysN d (n + 1)) (n + 1)
        = prevDay (subDaysN (nextDay (addDaysN d n)) n) := rfl
      _ = subDaysN (prevDay (nextDay (addDaysN d n))) n := (subDaysN_prevDay_comm _ n).symm
      _ = subDaysN (addDaysN d n) n := by rw [prevDay_nextDay hv]
      _ = d := ih

/-! ## Order: `toRD` is strictly monotone in lexicographic date order -/

/-- Lexicographic (chronological) strict order on year/month/day triples. -/
def lexLt : Date → Date → Prop
  | ⟨y1, m1, d1⟩, ⟨y2, m2, d2⟩ =>
    y1 < y2 ∨ (y1 = y2 ∧ (m1 < m2 ∨ (m1 = m2 ∧ d1 < d2)))

theorem yearStart_mono (y : Int) (k : Nat) :
    365 * y + leapsBefore y ≤ 365 * (y + k) + leapsBefore (y + k) := by
  induction k with
  | zero => simp
  | succ n ih =>
    have hls := leapsBefore_succ (y + n)
    have hcast : ((n + 1 : Nat) : Int) = (n : Int) + 1 := by push_cast; ring
    rw [hcast, ← add_assoc]
    split_ifs at hls <;> omega

theorem toRD_ge {d : Date} (h : Valid d) :
    365 * d.year + leapsBefore d.year ≤ toRD d := by
  obtain ⟨y, m, dd⟩ := d
  simp only [Valid] at h
  simp only [toRD]
  omega

theorem toRD_lt_next_yearStart {d : Date} (h : Valid d) :
    toRD d < 365 * (d.year + 1) + leapsBefore (d.year + 1) := by
  obtain ⟨y, m, dd⟩ := d
  simp only [Valid] at h
  obtain ⟨hm, hd1, hd2⟩ := h
  have hbd := daysBeforeMonth_add_le y hm
  have hls := leapsBefore_succ y
  simp only [toRD]
  split_ifs at hbd hls <;> omega

theorem toRD_strictMono {a b : Date} (ha : Valid a) (hb : Valid b) (hl : lexLt a b) :
    toRD a < toRD b := by
  obtain ⟨ya, ma, da⟩ := a
  obtain ⟨yb, mb, db⟩ := b
  simp only [Valid] at ha hb
  obtain ⟨hma, hda1, hda2⟩ := ha
  obtain ⟨hmb, hdb1, hdb2⟩ := hb
  simp only [lexLt] at hl
  rcases hl with hy | ⟨hy, hm | ⟨hm, hd⟩⟩
  · have h1 := toRD_lt_next_yearStart (d := ⟨ya, ma, da⟩)
      (by simp only [Valid]; exact ⟨hma, hda1, hda2⟩)
    have h2 := toRD_ge (d := ⟨yb, mb, db⟩)
      (by simp only [Valid]; exact ⟨hmb, hdb1, hdb2⟩)
    have h3 := yearStart_mono (ya + 1) (yb - ya - 1).toNat
    have h4 : (ya + 1) + ((yb - ya - 1).toNat : Int) = yb := by omega
    rw [h4] at h3
    simp only at h1 h2
    omega
  · subst hy
    have hlt := daysBeforeMonth_lt ya hm hmb
    simp only [toRD]
    omega
  · subst hy; subst hm
    simp only [toRD]
    omega

theorem toRD_inj {a b : Date} (ha : Valid a) (hb : Valid b) (h : toRD a = toRD b) :
    a = b := by
  by_contra hne
  have hlex : lexLt a b ∨ lexLt b a := by
    obtain ⟨ya, ma, da⟩ := a
    obtain ⟨yb, mb, db⟩ := b
    simp only [Date.mk.injEq] at hne
    simp only [lexLt]
    omega
  rcases hlex with h1 | h1
  · have := toRD_strictMono ha hb h1; omega
  · have := toRD_strictMono hb ha h1; omega

/-! ## Week arithmetic -/

theorem dow_eq (d : Date) : (dow d : Int) = (toRD d + 6) % 7 := by
  simp only [dow]
  omega

theorem startOfWeek_valid {d : Date} (h : Valid d) : Valid (startOfWeek d) :=
  subDaysN_valid h _

theorem toRD_startOfWeek {d : Date} (h : Valid d) :
    toRD (startOfWeek d) = toRD d - dow d :=
  toRD_subDaysN h _

theorem dow_startOfWeek {d : Date} (h : Valid d) : dow (startOfWeek d) = 0 := by
  have h1 := toRD_startOfWeek h
  have h2 := dow_eq d
  have h3 := dow_eq (startOfWeek d)
  omega

theorem startOfWeek_self {d : Date} (h : Valid d) (h0 : dow d = 0) :
    startOfWeek d = d := by
  unfold startOfWeek
  rw [h0]
  rfl

theorem startOfWeek_idem {d : Date} (h : Valid d) :
    startOfWeek (startOfWeek d) = startOfWeek d :=
  startOfWeek_self (startOfWeek_valid h) (dow_startOfWeek h)

theorem eq_addDaysN_of_toRD {s E : Date} (hs : Valid s) (hE : Valid E) (k : Nat)
    (h : toRD E = toRD s + k) : E = addDaysN s k :=
  toRD_inj hE (addDaysN_valid hs k) (by rw [toRD_addDaysN hs]; omega)

theorem startOfWeek_addDaysN {s : Date} (hs : Valid s) (h0 : dow s = 0) {k : Nat}
    (hk : k ≤ 6) : startOfWeek (addDaysN s k) = s := by
  have ht := toRD_addDaysN hs k
  have hd : dow (addDaysN s k) = k := by
    have h1 := dow_eq (addDaysN s k)
    have h2 := dow_eq s
    omega
  unfold startOfWeek
  rw [hd]
  exact subDaysN_addDaysN hs k

theorem startOfWeek_mem {D E : Date} (hD : Valid D) (hE : Valid E)
    (h1 : toRD (startOfWeek D) ≤ toRD E)
    (h2 : toRD E ≤ toRD (startOfWeek D) + 6) :
    startOfWeek E = startOfWeek D := by
  have hs : Valid (startOfWeek D) := startOfWeek_valid hD
  have h0 : dow (startOfWeek D) = 0 := dow_startOfWeek hD
  have hk : (toRD E - toRD (startOfWeek D)).toNat ≤ 6 := by omega
  have hE' : E = addDaysN (startOfWeek D) (toRD E - toRD (startOfWeek D)).toNat :=
    eq_addDaysN_of_toRD hs hE _ (by omega)
  rw [hE']
  exact startOfWeek_addDaysN hs h0 hk

/-! ## Month/year step inverse lemmas -/

theorem addMonths_subMonths {d : Date} (k : Nat) (hv : Valid d) (hk1 : 1 ≤ k) (hk2 : k ≤ 12)
    (hc : d.day ≤ daysInMonth (subMonths d k).year (subMonths d k).month) :
    addMonths (subMonths d k) k = d := by
  obtain ⟨y, m, dd⟩ := d
  simp only [Valid] at hv
  obtain ⟨hm, hd1, hd2⟩ := hv
  have hc' : dd ≤ daysInMonth (y + ((m + 12 - k) / 12 : Nat) - 1) ((m + 12 - k) % 12) := hc
  simp only [subMonths]
  rw [Nat.min_eq_left hc']
  simp only [addMonths]
  have hM : ((m + 12 - k) % 12 + k) % 12 = m := by omega
  have hY : y + ((m + 12 - k) / 12 : Nat) - 1 + (((m + 12 - k) % 12 + k) / 12 : Nat) = y := by
    omega
  rw [hM, hY, Nat.min_eq_left hd2]

theorem subMonths_addMonths {d : Date} (k : Nat) (hv : Valid d) (hk1 : 1 ≤ k) (hk2 : k ≤ 12)
    (hc : d.day ≤ daysInMonth (addMonths d k).year (addMonths d k).month) :
    subMonths (addMonths d k) k = d := by
  obtain ⟨y, m, dd⟩ := d
  simp only [Valid] at hv
  obtain ⟨hm, hd1, hd2⟩ := hv
  have hc' : dd ≤ daysInMonth (y + ((m + k) / 12 : Nat)) ((m + k) % 12) := hc
  simp only [addMonths]
  rw [Nat.min_eq_left hc']
  simp only [subMonths]
  have hM : ((m + k) % 12 + 12 - k) % 12 = m := by omega
  have hY : y + ((m + k) / 12 : Nat) + (((m + k) % 12 + 12 - k) / 12 : Nat) - 1 = y := by
    omega
  rw [hM, hY, Nat.min_eq_left hd2]

theorem addYears_cancel {d : Date} (k : Int) (hv : Valid d)
    (hc : d.day ≤ daysInMonth (d.year + k) d.month) :
    addYears (addYears d k) (-k) = d := by
  obtain ⟨y, m, dd⟩ := d
  simp only [Valid] at hv
  obtain ⟨hm, hd1, hd2⟩ := hv
  have hc' : dd ≤ daysInMonth (y + k) m := hc
  simp only [addYears]
  rw [Nat.min_eq_left hc']
  have hY : y + k + -k = y := by omega
  rw [hY, Nat.min_eq_left hd2]

theorem addDaysN_nextDay_comm (d : Date) (n : Nat) :
    addDaysN (nextDay d) n = nextDay (addDaysN d n) := by
  induction n with
  | zero => rfl
  | succ n ih => simp only [addDaysN, ih]

theorem addDaysN_subDaysN {d : Date} (h : Valid d) (n : Nat) :
    addDaysN (subDaysN d n) n = d := by
  induction n with
  | zero => rfl
  | succ n ih =>
    have hv := subDaysN_valid h n
    calc addDaysN (subDaysN d (n + 1)) (n + 1)
        = nextDay (addDaysN (prevDay (subDaysN d n)) n) := rfl
      _ = addDaysN (nextDay (prevDay (subDaysN d n))) n := (addDaysN_nextDay_comm _ n).symm
      _ = addDaysN (subDaysN d n) n := by rw [nextDay_prevDay hv]
      _ = d := ih

/-! ## The engine's note types and period arithmetic (src/utils/dateUtils.ts) -/

/-- `NoteType` enum from `src/types.ts`. -/
inductive NoteType
  | day
  | week
  | month
  | quarter
  | half_year
  | year
  deriving DecidableEq, Repr

/-- `getPreviousDate` from `dateUtils.ts`: step back by one unit of the
note type (moment `subtract`). -/
def getPreviousDate (date : Date) (noteType : NoteType) : Date :=
  match noteType with
  | .day => prevDay date
  | .week => subDaysN date 7
  | .month => subMonths date 1
  | .quarter => subMonths date 3
  | .half_year => subMonths date 6
  | .year => addYears date (-1)

/-- `getNextDate` from `dateUtils.ts`: step forward by one unit of the
note type (moment `add`). -/
def getNextDate (date : Date) (noteType : NoteType) : Date :=
  match noteType with
  | .day => nextDay date
  | .week => addDaysN date 7
  | .month => addMonths date 1
  | .quarter => addMonths date 3
  | .half_year => addMonths date 6
  | .year => addYears date 1

/-- `getBelongingDate` from `dateUtils.ts`: the start of the enclosing
parent period.  The `childType` parameter is accepted and ignored, as in the
source; the `default` branch of the `switch` (reached for `day`) returns the
date unchanged. -/
def getBelongingDate (date : Date) (childType : NoteType) (parentType : NoteType) : Date :=
  match parentType with
  | .week => startOfWeek date
  | .month => ⟨date.year, date.month, 1⟩
  | .quarter => ⟨date.year, date.month / 3 * 3, 1⟩
  | .half_year => ⟨date.year, date.month / 6 * 6, 1⟩
  | .year => ⟨date.year, 0, 1⟩
  | .day => date

/-- `DateRange` from `src/types.ts`; `stop` models the `end` field
(`endOf('day')` of the last day, so at day granularity the range is the
inclusive interval `[start, stop]`). -/
structure DateRange where
  start : Date
  stop : Date
  deriving DecidableEq, Repr

/-- `getChildDateRange` from `dateUtils.ts`: the inclusive span of one unit
of `parentType` containing `parentDate`; `none` for the `default` branch
(reached for `day`).  The `childType` parameter is ignored, as in the source. -/
def getChildDateRange (parentDate : Date) (parentType : NoteType) (childType : NoteType) :
    Option DateRange :=
  match parentType with
  | .week => some ⟨startOfWeek parentDate, addDaysN (startOfWeek parentDate) 6⟩
  | .month => some ⟨⟨parentDate.year, parentDate.month, 1⟩,
      ⟨parentDate.year, parentDate.month, daysInMonth parentDate.year parentDate.month⟩⟩
  | .quarter => some ⟨⟨parentDate.year, parentDate.month / 3 * 3, 1⟩,
      prevDay (addMonths ⟨parentDate.year, parentDate.month / 3 * 3, 1⟩ 3)⟩
  | .half_year => some ⟨⟨parentDate.year, parentDate.month / 6 * 6, 1⟩,
      prevDay (addMonths ⟨parentDate.year, parentDate.month / 6 * 6, 1⟩ 6)⟩
  | .year => some ⟨⟨parentDate.year, 0, 1⟩, ⟨parentDate.year, 11, 31⟩⟩
  | .day => none

/-- Membership of a date in a `DateRange`:
`date.isSameOrAfter(range.start) && date.isSameOrBefore(range.end)` at day
granularity. -/
def inRange (d : Date) : DateRange → Prop
  | ⟨lo, hi⟩ => toRD lo ≤ toRD d ∧ toRD d ≤ toRD hi

instance (d : Date) (r : DateRange) : Decidable (inRange d r) := by
  obtain ⟨lo, hi⟩ := r
  simp only [inRange]
  infer_instance

/-! ## C8: inverse laws of period stepping -/

/-- The calendar edge cases of `getNextDate`/`getPreviousDate`: month, quarter,
half-year and year steps clamp the day-of-month to the target month's length
(e.g. Jan 31 + 1 month = Feb 28/29), which loses information.  `noClamp d g`
says the day survives one step in each direction, i.e. `d` is not one of the
documented non-invertible month-end / leap-day edge cases for granularity `g`. -/
def noClamp (d : Date) (g : NoteType) : Prop :=
  match g with
  | .day => True
  | .week => True
  | .month => d.day ≤ daysInMonth (addMonths d 1).year (addMonths d 1).month ∧
      d.day ≤ daysInMonth (subMonths d 1).year (subMonths d 1).month
  | .quarter => d.day ≤ daysInMonth (addMonths d 3).year (addMonths d 3).month ∧
      d.day ≤ daysInMonth (subMonths d 3).year (subMonths d 3).month
  | .half_year => d.day ≤ daysInMonth (addMonths d 6).year (addMonths d 6).month ∧
      d.day ≤ daysInMonth (subMonths d 6).year (subMonths d 6).month
  | .year => d.day ≤ daysInMonth (d.year + 1) d.month ∧
      d.day ≤ daysInMonth (d.year + (-1)) d.month

instance (d : Date) (g : NoteType) : Decidable (noClamp d g) := by
  cases g <;> simp only [noClamp] <;> infer_instance

/-- C8: for every valid (period, granularity) pair,
`getPreviousDate (getNextDate period g) g = period` and
`getNextDate (getPreviousDate period g) g = period`, except at the calendar
edge cases (day-of-month clamping at month ends / leap days), which are
excluded by the `noClamp` hypothesis. -/
theorem claim_C8 (d : Date) (g : NoteType) (hv : Valid d) (h : noClamp d g) :
    getPreviousDate (getNextDate d g) g = d ∧ getNextDate (getPreviousDate d g) g = d := by
  cases g with
  | day => exact ⟨prevDay_nextDay hv, nextDay_prevDay hv⟩
  | week => exact ⟨subDaysN_addDaysN hv 7, addDaysN_subDaysN hv 7⟩
  | month =>
    obtain ⟨h1, h2⟩ := h
    exact ⟨subMonths_addMonths 1 hv (by omega) (by omega) h1,
           addMonths_subMonths 1 hv (by omega) (by omega) h2⟩
  | quarter =>
    obtain ⟨h1, h2⟩ := h
    exact ⟨subMonths_addMonths 3 hv (by omega) (by omega) h1,
           addMonths_subMonths 3 hv (by omega) (by omega) h2⟩
  | half_year =>
    obtain ⟨h1, h2⟩ := h
    exact ⟨subMonths_addMonths 6 hv (by omega) (by omega) h1,
           addMonths_subMonths 6 hv (by omega) (by omega) h2⟩
  | year =>
    obtain ⟨h1, h2⟩ := h
    constructor
    · exact addYears_cancel 1 hv h1
    · have hres := addYears_cancel (-1) hv h2
      norm_num at hres
      exact hres

/-- Witness for C8 at May 15, 2024 with month granularity. -/
theorem claim_C8_witness :
    getPreviousDate (getNextDate ⟨2024, 4, 15⟩ .month) .month = ⟨2024, 4, 15⟩ ∧
    getNextDate (getPreviousDate ⟨2024, 4, 15⟩ .month) .month = ⟨2024, 4, 15⟩ :=
  claim_C8 ⟨2024, 4, 15⟩ .month (by decide) (by decide)

/-! ## C5: `getChildDateRange` inverts `getBelongingDate` -/

theorem quarter_stop (y : Int) (q3 : Nat) (h : q3 = 0 ∨ q3 = 3 ∨ q3 = 6 ∨ q3 = 9) :
    prevDay (addMonths ⟨y, q3, 1⟩ 3) = ⟨y, q3 + 2, daysInMonth y (q3 + 2)⟩ := by
  rcases h with rfl | rfl | rfl | rfl <;>
    simp [addMonths, prevDay, daysInMonth] <;> norm_num

theorem half_stop (y : Int) (q6 : Nat) (h : q6 = 0 ∨ q6 = 6) :
    prevDay (addMonths ⟨y, q6, 1⟩ 6) = ⟨y, q6 + 5, daysInMonth y (q6 + 5)⟩ := by
  rcases h with rfl | rfl <;>
    simp [addMonths, prevDay, daysInMonth] <;> norm_num

theorem not_lexLt_of_toRD {E lo hi : Date} (hE : Valid E) (hlo : Valid lo) (hhi : Valid hi)
    (h1 : toRD lo ≤ toRD E) (h2 : toRD E ≤ toRD hi) :
    ¬ lexLt E lo ∧ ¬ lexLt hi E :=
  ⟨fun hl => absurd (toRD_strictMono hE hlo hl) (by omega),
   fun hl => absurd (toRD_strictMono hhi hE hl) (by omega)⟩

/-- C5: `getChildDateRange` is the exact inverse neighborhood of
`getBelongingDate`.  For every valid date `D` and granularity pair for which
the child range of the belonging date is defined: the belonging date lies
inside that range; every valid date inside the range has the same belonging
date; and (boundary check) a child dated March 31 buckets into Q1
(`floor(month/3)*3` with month 2 gives month 0), not Q2. -/
theorem claim_C5 (D : Date) (ct G : NoteType) (hv : Valid D) (r : DateRange)
    (hr : getChildDateRange (getBelongingDate D ct G) G ct = some r) :
    inRange (getBelongingDate D ct G) r ∧
    (∀ E : Date, Valid E → inRange E r → getBelongingDate E ct G = getBelongingDate D ct G) ∧
    (∀ (y : Int) (ct2 : NoteType), getBelongingDate ⟨y, 2, 31⟩ ct2 .quarter = ⟨y, 0, 1⟩) := by
  have hq1 : ∀ (y : Int) (ct2 : NoteType),
      getBelongingDate ⟨y, 2, 31⟩ ct2 .quarter = ⟨y, 0, 1⟩ := by
    intro y ct2
    simp only [getBelongingDate]
  suffices hmain : inRange (getBelongingDate D ct G) r ∧
      (∀ E : Date, Valid E → inRange E r → getBelongingDate E ct G = getBelongingDate D ct G) by
    exact ⟨hmain.1, hmain.2, hq1⟩
  clear hq1
  cases G with
  | day =>
    simp only [getChildDateRange] at hr
    exact Option.noConfusion hr
  | week =>
    simp only [getBelongingDate, getChildDateRange] at hr ⊢
    rw [startOfWeek_idem hv] at hr
    rw [Option.some_inj] at hr
    subst hr
    have hS : Valid (startOfWeek D) := startOfWeek_valid hv
    have h6 := toRD_addDaysN hS 6
    constructor
    · simp only [inRange]
      omega
    · intro E hE hin
      simp only [inRange] at hin
      exact startOfWeek_mem hv hE (by omega) (by omega)
  | month =>
    obtain ⟨y, m, dd⟩ := D
    simp only [Valid] at hv
    obtain ⟨hm, hd1, hd2⟩ := hv
    simp only [getBelongingDate, getChildDateRange] at hr ⊢
    rw [Option.some_inj] at hr
    subst hr
    have hlo : Valid ⟨y, m, 1⟩ := by
      simp only [Valid]; exact ⟨hm, le_refl _, daysInMonth_pos _ _⟩
    have hhi : Valid ⟨y, m, daysInMonth y m⟩ := by
      simp only [Valid]; exact ⟨hm, daysInMonth_pos _ _, le_refl _⟩
    constructor
    · simp only [inRange, toRD]
      have := daysInMonth_pos y m
      omega
    · intro E hE hin
      obtain ⟨ye, me, de⟩ := E
      simp only [Valid] at hE
      obtain ⟨hme, hde1, hde2⟩ := hE
      simp only [inRange] at hin
      obtain ⟨hin1, hin2⟩ := hin
      obtain ⟨hn1, hn2⟩ := not_lexLt_of_toRD
        (show Valid ⟨ye, me, de⟩ by simp only [Valid]; exact ⟨hme, hde1, hde2⟩)
        hlo hhi hin1 hin2
      simp only [lexLt] at hn1 hn2
      simp only [getBelongingDate, Date.mk.injEq, true_and, and_true]
      omega
  | quarter =>
    obtain ⟨y, m, dd⟩ := D
    simp only [Valid] at hv
    obtain ⟨hm, hd1, hd2⟩ := hv
    simp only [getBelongingDate, getChildDateRange] at hr ⊢
    have hq : m / 3 * 3 / 3 * 3 = m / 3 * 3 := by omega
    rw [hq] at hr
    have hq4 : m / 3 * 3 = 0 ∨ m / 3 * 3 = 3 ∨ m / 3 * 3 = 6 ∨ m / 3 * 3 = 9 := by omega
    rw [quarter_stop y _ hq4] at hr
    rw [Option.some_inj] at hr
    subst hr
    have hlo : Valid ⟨y, m / 3 * 3, 1⟩ := by
      simp only [Valid]; exact ⟨by omega, le_refl _, daysInMonth_pos _ _⟩
    have hhi : Valid ⟨y, m / 3 * 3 + 2, daysInMonth y (m / 3 * 3 + 2)⟩ := by
      simp only [Valid]; exact ⟨by omega, daysInMonth_pos _ _, le_refl _⟩
    constructor
    · have hlt := daysBeforeMonth_lt y (show m / 3 * 3 < m / 3 * 3 + 2 by omega)
        (show m / 3 * 3 + 2 ≤ 11 by omega)
      have hp1 := daysInMonth_pos y (m / 3 * 3)
      have hp2 := daysInMonth_pos y (m / 3 * 3 + 2)
      simp only [inRange, toRD]
      omega
    · intro E hE hin
      obtain ⟨ye, me, de⟩ := E
      simp only [Valid] at hE
      obtain ⟨hme, hde1, hde2⟩ := hE
      simp only [inRange] at hin
      obtain ⟨hin1, hin2⟩ := hin
      obtain ⟨hn1, hn2⟩ := not_lexLt_of_toRD
        (show Valid ⟨ye, me, de⟩ by simp only [Valid]; exact ⟨hme, hde1, hde2⟩)
        hlo hhi hin1 hin2
      simp only [lexLt] at hn1 hn2
      simp only [getBelongingDate, Date.mk.injEq, true_and, and_true]
      omega
  | half_year =>
    obtain ⟨y, m, dd⟩ := D
    simp only [Valid] at hv
    obtain ⟨hm, hd1, hd2⟩ := hv
    simp only [getBelongingDate, getChildDateRange] at hr ⊢
    have hq : m / 6 * 6 / 6 * 6 = m / 6 * 6 := by omega
    rw [hq] at hr
    have hq4 : m / 6 * 6 = 0 ∨ m / 6 * 6 = 6 := by omega
    rw [half_stop y _ hq4] at hr
    rw [Option.some_inj] at hr
    subst hr
    have hlo : Valid ⟨y, m / 6 * 6, 1⟩ := by
      simp only [Valid]; exact ⟨by omega, le_refl _, daysInMonth_pos _ _⟩
    have hhi : Valid ⟨y, m / 6 * 6 + 5, daysInMonth y (m / 6 * 6 + 5)⟩ := by
      simp only [Valid]; exact ⟨by omega, daysInMonth_pos _ _, le_refl _⟩
    constructor
    · have hlt := daysBeforeMonth_lt y (show m / 6 * 6 < m / 6 * 6 + 5 by omega)
        (show m / 6 * 6 + 5 ≤ 11 by omega)
      have hp1 := daysInMonth_pos y (m / 6 * 6)
      have hp2 := daysInMonth_pos y (m / 6 * 6 + 5)
      simp only [inRange, toRD]
      omega
    · intro E hE hin
      obtain ⟨ye, me, de⟩ := E
      simp only [Valid] at hE
      obtain ⟨hme, hde1, hde2⟩ := hE
      simp only [inRange] at hin
      obtain ⟨hin1, hin2⟩ := hin
      obtain ⟨hn1, hn2⟩ := not_lexLt_of_toRD
        (show Valid ⟨ye, me, de⟩ by simp only [Valid]; exact ⟨hme, hde1, hde2⟩)
        hlo hhi hin1 hin2
      simp only [lexLt] at hn1 hn2
      simp only [getBelongingDate, Date.mk.injEq, true_and, and_true]
      omega
  | year =>
    obtain ⟨y, m, dd⟩ := D
    simp only [Valid] at hv
    obtain ⟨hm, hd1, hd2⟩ := hv
    simp only [getBelongingDate, getChildDateRange] at hr ⊢
    rw [Option.some_inj] at hr
    subst hr
    have hlo : Valid ⟨y, 0, 1⟩ := by
      simp only [Valid]; exact ⟨by omega, le_refl _, daysInMonth_pos _ _⟩
    have hhi : Valid ⟨y, 11, 31⟩ := by
      simp only [Valid]; exact ⟨by omega, by omega, by rw [daysInMonth_eleven]⟩
    constructor
    · have hlt := daysBeforeMonth_lt y (show (0 : Nat) < 11 by omega)
        (show (11 : Nat) ≤ 11 by omega)
      have hp1 := daysInMonth_pos y 0
      simp only [inRange, toRD]
      omega
    · intro E hE hin
      obtain ⟨ye, me, de⟩ := E
      simp only [Valid] at hE
      obtain ⟨hme, hde1, hde2⟩ := hE
      simp only [inRange] at hin
      obtain ⟨hin1, hin2⟩ := hin
      obtain ⟨hn1, hn2⟩ := not_lexLt_of_toRD
        (show Valid ⟨ye, me, de⟩ by simp only [Valid]; exact ⟨hme, hde1, hde2⟩)
        hlo hhi hin1 hin2
      simp only [lexLt] at hn1 hn2
      simp only [getBelongingDate, Date.mk.injEq, true_and, and_true]
      omega

/-- Witness for C5: March 31, 2024, quarter granularity; the range is Q1 2024
and March 31 is bucketed with Q1. -/
theorem claim_C5_witness :
    inRange (getBelongingDate ⟨2024, 2, 31⟩ .day .quarter) ⟨⟨2024, 0, 1⟩, ⟨2024, 2, 31⟩⟩ ∧
    (∀ E : Date, Valid E → inRange E ⟨⟨2024, 0, 1⟩, ⟨2024, 2, 31⟩⟩ →
      getBelongingDate E .day .quarter = getBelongingDate ⟨2024, 2, 31⟩ .day .quarter) ∧
    (∀ (y : Int) (ct2 : NoteType), getBelongingDate ⟨y, 2, 31⟩ ct2 .quarter = ⟨y, 0, 1⟩) :=
  claim_C5 ⟨2024, 2, 31⟩ .day .quarter (by decide) ⟨⟨2024, 0, 1⟩, ⟨2024, 2, 31⟩⟩ (by decide)

/-! ## Parsing and formatting (src/utils/dateUtils.ts) -/

/-- A moment.js object: either a valid calendar date or the invalid moment
(`isValid()` false).  In JS an invalid moment object is still truthy, unlike
`null`; `Option MVal` models `moment.Moment | null`. -/
inductive MVal
  | invalid
  | valid (d : Date)
  deriving DecidableEq, Repr

/-- The stream date-format strings modelled by this embedding: the formats
offered by the plugin settings UI (`ChronolinkerSettingTab`), except the
locale-week format "YYYY-[W]ww", whose moment.js week-number semantics is out
of scope.  `fmtH` is "YYYY-[H]H", the half-year format special-cased in
`dateUtils.ts`. -/
inductive Format
  | fmtYMD
  | fmtYM
  | fmtY
  | fmtQ
  | fmtH
  deriving DecidableEq, Repr

/-- JS `String.prototype.split('-')` on a character list: splits at every
dash; `""` splits to `[""]`. -/
def splitDash : List Char → List (List Char)
  | [] => [[]]
  | c :: rest =>
    if c = '-' then [] :: splitDash rest
    else
      match splitDash rest with
      | [] => [[c]]
      | p :: ps => (c :: p) :: ps

/-- Joining with dashes, the inverse of `splitDash`. -/
def joinDash : List (List Char) → List Char
  | [] => []
  | [p] => p
  | p :: q :: ps => p ++ '-' :: joinDash (q :: ps)

/-- Decimal digit test (`0` to `9`). -/
def isDigitCh (c : Char) : Bool := 48 ≤ c.toNat && c.toNat ≤ 57

def allDigits (l : List Char) : Bool := l.all isDigitCh

/-- Value of a decimal digit string (most significant first). -/
def digitsVal (l : List Char) : Nat :=
  l.foldl (fun a c => 10 * a + (c.toNat - 48)) 0

/-- Zero-padded fixed-width decimal rendering, the behaviour of moment's
`YYYY`/`MM`/`DD` tokens for in-range values. -/
def padDigits : Nat → Nat → List Char
  | 0, _ => []
  | w + 1, v => padDigits w (v / 10) ++ [Char.ofNat (48 + v % 10)]

/-- JS `ToNumber` as applied by `moment().year(yearString)`: digit-only
strings (including `""`, which converts to 0) convert to their decimal value;
any other string is modelled as NaN (`none`).  (Signed, fractional or
whitespace-padded numerals, which full JS `ToNumber` would also convert, are
mapped to NaN here; they cannot round-trip through the engine's filenames.) -/
def jsToNumberL (l : List Char) : Option Int :=
  if allDigits l then some (digitsVal l) else none

/-- Strict parse `moment(filename, format, true)` for the modelled
non-half-year formats: the input must consist of exactly the format's
dash-separated digit groups (with `Q` prefix for the quarter token), with
calendar-valid field values; anything else yields an invalid moment, which
`parseDateFromFilename` turns into `null`. -/
def momentStrictParse (s : String) (f : Format) : Option Date :=
  match f with
  | .fmtYMD =>
    match splitDash s.toList with
    | [ys, ms, ds] =>
      if allDigits ys && ys.length = 4 && allDigits ms && ms.length = 2
          && allDigits ds && ds.length = 2 then
        let y : Int := digitsVal ys
        let mo := digitsVal ms
        let dd := digitsVal ds
        if 1 ≤ mo ∧ mo ≤ 12 ∧ 1 ≤ dd ∧ dd ≤ daysInMonth y (mo - 1) then
          some ⟨y, mo - 1, dd⟩
        else none
      else none
    | _ => none
  | .fmtYM =>
    match splitDash s.toList with
    | [ys, ms] =>
      if allDigits ys && ys.length = 4 && allDigits ms && ms.length = 2 then
        let y : Int := digitsVal ys
        let mo := digitsVal ms
        if 1 ≤ mo ∧ mo ≤ 12 then some ⟨y, mo - 1, 1⟩ else none
      else none
    | _ => none
  | .fmtY =>
    match splitDash s.toList with
    | [ys] =>
      if allDigits ys && ys.length = 4 then some ⟨(digitsVal ys : Int), 0, 1⟩ else none
    | _ => none
  | .fmtQ =>
    match splitDash s.toList with
    | [ys, qs] =>
      if allDigits ys && ys.length = 4 && qs.length = 2 && qs.getD 0 ' ' = 'Q'
          && isDigitCh (qs.getD 1 ' ') then
        let y : Int := digitsVal ys
        let qv := digitsVal (qs.drop 1)
        if 1 ≤ qv ∧ qv ≤ 4 then some ⟨y, (qv - 1) * 3, 1⟩ else none
      else none
    | _ => none
  | .fmtH => none

/-- `parseDateFromFilename` from `dateUtils.ts`.  The half-year format is
special-cased: the basename is split on `-`; component 1 must be `H1` or `H2`
(else `null`), and the year is component 0 coerced with JS `ToNumber`
(`moment().year(year).month(0|6).date(1)`), so a non-numeric year yields a
truthy invalid moment, not `null`.  All other formats go through moment's
strict parse, with invalid results mapped to `null`. -/
def parseDateFromFilename (filename : String) (format : Format) : Option MVal :=
  match format with
  | .fmtH =>
    let parts := splitDash filename.toList
    if parts.getD 1 [] = ['H', '1'] then
      match jsToNumberL (parts.getD 0 []) with
      | some y => some (.valid ⟨y, 0, 1⟩)
      | none => some .invalid
    else if parts.getD 1 [] = ['H', '2'] then
      match jsToNumberL (parts.getD 0 []) with
      | some y => some (.valid ⟨y, 6, 1⟩)
      | none => some .invalid
    else none
  | f => (momentStrictParse filename f).map .valid

/-- moment `YYYY` token: zero-padded 4 digits for years 0–9999 (out-of-range
years fall back to a plain decimal rendering, which never arises from parsed
filenames). -/
def momentYYYY (y : Int) : List Char :=
  if 0 ≤ y ∧ y ≤ 9999 then padDigits 4 y.toNat else (toString y).toList

/-- Character-level body of `formatDateForFilename`.  For a valid date the
half-year branch mirrors the source: `floor(month/6) + 1` rendered 1-based
after `H`; the quarter token renders `floor(month/3) + 1`.  For an invalid
moment, `format` renders "Invalid date", and the half-year template
interpolates `NaN` (`Invalid date-HNaN`), as the source's template string
does. -/
def formatChars : MVal → Format → List Char
  | .valid d, .fmtYMD =>
    momentYYYY d.year ++ '-' :: padDigits 2 (d.month + 1) ++ '-' :: padDigits 2 d.day
  | .valid d, .fmtYM => momentYYYY d.year ++ '-' :: padDigits 2 (d.month + 1)
  | .valid d, .fmtY => momentYYYY d.year
  | .valid d, .fmtQ => momentYYYY d.year ++ '-' :: 'Q' :: padDigits 1 (d.month / 3 + 1)
  | .valid d, .fmtH => momentYYYY d.year ++ '-' :: 'H' :: padDigits 1 (d.month / 6 + 1)
  | .invalid, .fmtH => "Invalid date-HNaN".toList
  | .invalid, _ => "Invalid date".toList

/-- `formatDateForFilename` from `dateUtils.ts`. -/
def formatDateForFilename (v : MVal) (f : Format) : String :=
  String.mk (formatChars v f)

/-! ## Digit round-trip lemmas -/

theorem digitsVal_append (l : List Char) (c : Char) :
    digitsVal (l ++ [c]) = 10 * digitsVal l + (c.toNat - 48) := by
  simp [digitsVal, List.foldl_append]

theorem allDigits_append_singleton (l : List Char) (c : Char) :
    allDigits (l ++ [c]) = true ↔ allDigits l = true ∧ (48 ≤ c.toNat ∧ c.toNat ≤ 57) := by
  simp [allDigits, isDigitCh]

theorem digitsVal_lt (l : List Char) (h : allDigits l = true) :
    digitsVal l < 10 ^ l.length := by
  induction l using List.reverseRecOn with
  | nil => simp [digitsVal]
  | append_singleton l c ih =>
    obtain ⟨hl, hc⟩ := (allDigits_append_singleton l c).mp h
    have hb := ih hl
    rw [digitsVal_append]
    simp only [List.length_append, List.length_singleton, pow_succ]
    omega

theorem padDigits_digitsVal (l : List Char) (h : allDigits l = true) :
    padDigits l.length (digitsVal l) = l := by
  induction l using List.reverseRecOn with
  | nil => rfl
  | append_singleton l c ih =>
    obtain ⟨hl, hc1, hc2⟩ := (allDigits_append_singleton l c).mp h
    rw [digitsVal_append]
    have hlen : (l ++ [c]).length = l.length + 1 := by simp
    rw [hlen]
    simp only [padDigits]
    have hd : (10 * digitsVal l + (c.toNat - 48)) / 10 = digitsVal l := by omega
    have hm : (10 * digitsVal l + (c.toNat - 48)) % 10 = c.toNat - 48 := by omega
    rw [hd, hm]
    have hcn : 48 + (c.toNat - 48) = c.toNat := by omega
    rw [hcn, Char.ofNat_toNat, ih hl]

theorem splitDash_ne_nil (l : List Char) : splitDash l ≠ [] := by
  induction l with
  | nil => simp [splitDash]
  | cons c rest ih =>
    simp only [splitDash]
    split_ifs
    · simp
    · match hs : splitDash rest with
      | [] => exact absurd hs ih
      | p :: ps => simp

theorem joinDash_splitDash (l : List Char) : joinDash (splitDash l) = l := by
  induction l with
  | nil => rfl
  | cons c rest ih =>
    simp only [splitDash]
    split_ifs with hc
    · subst hc
      match hs : splitDash rest with
      | [] => exact absurd hs (splitDash_ne_nil rest)
      | p :: ps =>
        rw [hs] at ih
        simp only [joinDash]
        rw [ih]
        rfl
    · match hs : splitDash rest with
      | [] => exact absurd hs (splitDash_ne_nil rest)
      | p :: ps =>
        rw [hs] at ih
        cases ps with
        | nil =>
          simp only [joinDash] at ih ⊢
          rw [ih]
        | cons q qs =>
          simp only [joinDash] at ih ⊢
          rw [List.cons_append, ih]

theorem string_eq_of_data {a b : String} (h : a.data = b.data) : a = b := by
  cases a
  cases b
  exact congrArg String.mk h

theorem yyyy_of_digits {ys : List Char} (hysd : allDigits ys = true) (hys4 : ys.length = 4) :
    momentYYYY ((digitsVal ys : Nat) : Int) = ys := by
  have hyv : digitsVal ys < 10000 := by
    have := digitsVal_lt ys hysd
    rw [hys4] at this
    norm_num at this
    exact this
  unfold momentYYYY
  rw [if_pos (by constructor <;> omega)]
  rw [Int.toNat_natCast, ← hys4, padDigits_digitsVal ys hysd]

/-- Round-trip for the modelled non-half-year formats: every accepted string
is exactly the canonical rendering of its parse. -/
theorem parse_format_nonH (f : Format) (hf : f ≠ .fmtH) (s : String) (v : MVal)
    (hacc : parseDateFromFilename s f = some v) :
    formatDateForFilename v f = s := by
  have hjs : joinDash (splitDash s.data) = s.data := joinDash_splitDash s.toList
  cases f with
  | fmtH => exact absurd rfl hf
  | fmtYMD =>
    simp only [parseDateFromFilename, Option.map_eq_some'] at hacc
    obtain ⟨d, hp, hv⟩ := hacc
    subst hv
    unfold momentStrictParse at hp
    match hsp : splitDash s.toList with
    | [] => rw [hsp] at hp; exact Option.noConfusion hp
    | [ys] => rw [hsp] at hp; exact Option.noConfusion hp
    | [ys, ms] => rw [hsp] at hp; exact Option.noConfusion hp
    | ys :: ms :: ds :: e :: rest => rw [hsp] at hp; exact Option.noConfusion hp
    | [ys, ms, ds] =>
      rw [hsp] at hp
      rw [(show splitDash s.data = [ys, ms, ds] from hsp)] at hjs
      simp only [Bool.and_eq_true, decide_eq_true_eq] at hp
      split_ifs at hp with hg hval
      · obtain ⟨⟨⟨⟨⟨hysd, hys4⟩, hmsd⟩, hms2⟩, hdsd⟩, hds2⟩ := hg
        rw [Option.some_inj] at hp
        subst hp
        apply string_eq_of_data
        show momentYYYY _ ++ '-' :: padDigits 2 _ ++ '-' :: padDigits 2 _ = s.data
        have hslist : s.data = ys ++ '-' :: (ms ++ '-' :: ds) := by
          rw [← hjs]
          simp [joinDash]
        rw [hslist, yyyy_of_digits hysd hys4]
        have hM : padDigits 2 (digitsVal ms - 1 + 1) = ms := by
          have h1 : digitsVal ms - 1 + 1 = digitsVal ms := by omega
          rw [h1, ← hms2, padDigits_digitsVal ms hmsd]
        have hD : padDigits 2 (digitsVal ds) = ds := by
          rw [← hds2, padDigits_digitsVal ds hdsd]
        rw [hM, hD]
        simp [List.append_assoc]
  | fmtYM =>
    simp only [parseDateFromFilename, Option.map_eq_some'] at hacc
    obtain ⟨d, hp, hv⟩ := hacc
    subst hv
    unfold momentStrictParse at hp
    match hsp : splitDash s.toList with
    | [] => rw [hsp] at hp; exact Option.noConfusion hp
    | [ys] => rw [hsp] at hp; exact Option.noConfusion hp
    | ys :: ms :: e :: rest => rw [hsp] at hp; exact Option.noConfusion hp
    | [ys, ms] =>
      rw [hsp] at hp
      rw [(show splitDash s.data = [ys, ms] from hsp)] at hjs
      simp only [Bool.and_eq_true, decide_eq_true_eq] at hp
      split_ifs at hp with hg hval
      · obtain ⟨⟨⟨hysd, hys4⟩, hmsd⟩, hms2⟩ := hg
        rw [Option.some_inj] at hp
        subst hp
        apply string_eq_of_data
        show momentYYYY _ ++ '-' :: padDigits 2 _ = s.data
        have hslist : s.data = ys ++ '-' :: ms := by
          rw [← hjs]
          simp [joinDash]
        rw [hslist, yyyy_of_digits hysd hys4]
        have hM : padDigits 2 (digitsVal ms - 1 + 1) = ms := by
          have h1 : digitsVal ms - 1 + 1 = digitsVal ms := by omega
          rw [h1, ← hms2, padDigits_digitsVal ms hmsd]
        rw [hM]
  | fmtY =>
    simp only [parseDateFromFilename, Option.map_eq_some'] at hacc
    obtain ⟨d, hp, hv⟩ := hacc
    subst hv
    unfold momentStrictParse at hp
    match hsp : splitDash s.toList with
    | [] => rw [hsp] at hp; exact Option.noConfusion hp
    | ys :: e :: rest => rw [hsp] at hp; exact Option.noConfusion hp
    | [ys] =>
      rw [hsp] at hp
      rw [(show splitDash s.data = [ys] from hsp)] at hjs
      simp only [Bool.and_eq_true, decide_eq_true_eq] at hp
      split_ifs at hp with hg
      · obtain ⟨hysd, hys4⟩ := hg
        rw [Option.some_inj] at hp
        subst hp
        apply string_eq_of_data
        show momentYYYY _ = s.data
        have hslist : s.data = ys := by
          rw [← hjs]
          simp [joinDash]
        rw [hslist, yyyy_of_digits hysd hys4]
  | fmtQ =>
    simp only [parseDateFromFilename, Option.map_eq_some'] at hacc
    obtain ⟨d, hp, hv⟩ := hacc
    subst hv
    unfold momentStrictParse at hp
    match hsp : splitDash s.toList with
    | [] => rw [hsp] at hp; exact Option.noConfusion hp
    | [ys] => rw [hsp] at hp; exact Option.noConfusion hp
    | ys :: qs :: e :: rest => rw [hsp] at hp; exact Option.noConfusion hp
    | [ys, qs] =>
      rw [hsp] at hp
      rw [(show splitDash s.data = [ys, qs] from hsp)] at hjs
      simp only [Bool.and_eq_true, decide_eq_true_eq] at hp
      split_ifs at hp with hg hval
      · obtain ⟨⟨⟨⟨hysd, hys4⟩, hqs2⟩, hq0⟩, hq1d⟩ := hg
        rw [Option.some_inj] at hp
        subst hp
        rcases qs with _ | ⟨q0, _ | ⟨q1, _ | ⟨q2, r⟩⟩⟩
        · simp at hqs2
        · simp at hqs2
        · have hq0e : q0 = 'Q' := by simpa using hq0
          subst hq0e
          apply string_eq_of_data
          show momentYYYY _ ++ '-' :: 'Q' :: padDigits 1 _ = s.data
          have hslist : s.data = ys ++ '-' :: ('Q' :: [q1]) := by
            rw [← hjs]
            simp [joinDash]
          rw [hslist, yyyy_of_digits hysd hys4]
          have hQd : digitsVal (List.drop 1 ['Q', q1]) = digitsVal [q1] := by simp
          have hQv : (digitsVal (List.drop 1 ['Q', q1]) - 1) * 3 / 3 + 1
              = digitsVal [q1] := by
            rw [hQd] at hval ⊢
            omega
          rw [hQv]
          have hq1all : allDigits [q1] = true := by
            simpa [allDigits, List.all_cons, isDigitCh] using hq1d
          have hpd : padDigits 1 (digitsVal [q1]) = [q1] := by
            have h1 := padDigits_digitsVal [q1] hq1all
            simpa using h1
          rw [hpd]
        · simp at hqs2

/-! ## C3 and C4 -/

/-- C3 (amended): under the half-year pattern, `parseDateFromFilename`
inspects only the first two dash-separated components of the basename:
component 1 equal to `H1` (`H2`) yields January (July) 1 of the JS-coerced
year in component 0, and any other component 1 is a parse failure; the
modelled non-half-year formats are strict (an accepted basename is exactly
the canonical rendering of its parse).  The half-year parse is NOT strict:
trailing components are ignored (see the counterexample). -/
theorem claim_C3 (s : String) :
    ((splitDash s.toList).getD 1 [] ≠ ['H', '1'] →
     (splitDash s.toList).getD 1 [] ≠ ['H', '2'] →
     parseDateFromFilename s .fmtH = none) ∧
    (∀ y : Int, (splitDash s.toList).getD 1 [] = ['H', '1'] →
     jsToNumberL ((splitDash s.toList).getD 0 []) = some y →
     parseDateFromFilename s .fmtH = some (.valid ⟨y, 0, 1⟩)) ∧
    (∀ y : Int, (splitDash s.toList).getD 1 [] = ['H', '2'] →
     jsToNumberL ((splitDash s.toList).getD 0 []) = some y →
     parseDateFromFilename s .fmtH = some (.valid ⟨y, 6, 1⟩)) ∧
    (∀ (f : Format) (v : MVal), f ≠ .fmtH → parseDateFromFilename s f = some v →
     formatDateForFilename v f = s) := by
  refine ⟨?_, ?_, ?_, ?_⟩
  · intro h1 h2
    simp only [parseDateFromFilename]
    rw [if_neg h1, if_neg h2]
  · intro y h1 h2
    simp only [parseDateFromFilename]
    rw [if_pos h1, h2]
  · intro y h1 h2
    have hne : (splitDash s.toList).getD 1 [] ≠ ['H', '1'] := by
      rw [h1]; decide
    simp only [parseDateFromFilename]
    rw [if_neg hne, if_pos h1, h2]
  · intro f v hf hacc
    exact parse_format_nonH f hf s v hacc

/-- C3 counterexample: "2024-H1-x" does not exactly match the half-year
pattern (it has three dash components and is not the canonical rendering of
the date it parses to), yet the parse succeeds instead of returning NONE. -/
theorem claim_C3_counterexample :
    parseDateFromFilename "2024-H1-x" .fmtH = some (.valid ⟨2024, 0, 1⟩) ∧
    (splitDash "2024-H1-x".toList).length = 3 ∧
    formatDateForFilename (.valid ⟨2024, 0, 1⟩) .fmtH = "2024-H1" ∧
    "2024-H1-x" ≠ "2024-H1" := by
  decide

/-- Witness for C3: "2024-H1" parses to January 1, 2024; "2024-H3" fails. -/
theorem claim_C3_witness :
    parseDateFromFilename "2024-H1" .fmtH = some (.valid ⟨2024, 0, 1⟩) ∧
    parseDateFromFilename "2024-H3" .fmtH = none :=
  ⟨(claim_C3 "2024-H1").2.1 2024 (by decide) (by decide),
   (claim_C3 "2024-H3").1 (by decide) (by decide)⟩

/-- C4 (amended): `format(parse(s, f), f) = s` for every accepted `s`, for
every modelled format — except that under the half-year special case the
accepted string must in addition be canonical (exactly two dash components
and a 4-digit numeric year); the counterexample shows the law fails for the
other accepted half-year strings. -/
theorem claim_C4 (f : Format) (s : String) (v : MVal)
    (hacc : parseDateFromFilename s f = some v)
    (hH : f = .fmtH →
      (splitDash s.toList).length = 2 ∧
      allDigits ((splitDash s.toList).getD 0 []) = true ∧
      ((splitDash s.toList).getD 0 []).length = 4) :
    formatDateForFilename v f = s := by
  by_cases hf : f = .fmtH
  · subst hf
    obtain ⟨hlen, hdig, hlen4⟩ := hH rfl
    have hjs : joinDash (splitDash s.data) = s.data := joinDash_splitDash s.toList
    rcases hp : splitDash s.toList with _ | ⟨p0, _ | ⟨p1, _ | ⟨p2, r⟩⟩⟩
    · exact absurd hp (splitDash_ne_nil _)
    · rw [hp] at hlen; simp at hlen
    · simp only [parseDateFromFilename] at hacc
      rw [hp] at hacc
      rw [(show splitDash s.data = [p0, p1] from hp)] at hjs
      rw [hp] at hdig hlen4
      simp only [List.getD_cons_succ, List.getD_cons_zero] at hacc hdig hlen4
      have hslist : s.data = p0 ++ '-' :: p1 := by
        rw [← hjs]; simp [joinDash]
      split_ifs at hacc with h1 h2
      · subst h1
        rw [jsToNumberL, if_pos hdig] at hacc
        simp only [Option.some.injEq] at hacc
        subst hacc
        apply string_eq_of_data
        show momentYYYY _ ++ '-' :: 'H' :: padDigits 1 (0 / 6 + 1) = s.data
        rw [hslist, yyyy_of_digits hdig hlen4,
          (show padDigits 1 (0 / 6 + 1) = ['1'] from by decide)]
      · subst h2
        rw [jsToNumberL, if_pos hdig] at hacc
        simp only [Option.some.injEq] at hacc
        subst hacc
        apply string_eq_of_data
        show momentYYYY _ ++ '-' :: 'H' :: padDigits 1 (6 / 6 + 1) = s.data
        rw [hslist, yyyy_of_digits hdig hlen4,
          (show padDigits 1 (6 / 6 + 1) = ['2'] from by decide)]
    · rw [hp] at hlen; simp at hlen
  · exact parse_format_nonH f hf s v hacc

/-- C4 counterexample: "24-H2" is accepted by the half-year parse (July 1 of
year 24) but formatting that date yields "0024-H2", not "24-H2": the
round-trip law fails as stated. -/
theorem claim_C4_counterexample :
    parseDateFromFilename "24-H2" .fmtH = some (.valid ⟨24, 6, 1⟩) ∧
    formatDateForFilename (.valid ⟨24, 6, 1⟩) .fmtH ≠ "24-H2" := by
  decide

/-- Witness for C4: a canonical half-year string and a day string round-trip. -/
theorem claim_C4_witness :
    formatDateForFilename (.valid ⟨2024, 6, 1⟩) .fmtH = "2024-H2" ∧
    formatDateForFilename (.valid ⟨2024, 0, 31⟩) .fmtYMD = "2024-01-31" :=
  ⟨claim_C4 .fmtH "2024-H2" (.valid ⟨2024, 6, 1⟩) (by decide) (by decide),
   claim_C4 .fmtYMD "2024-01-31" (.valid ⟨2024, 0, 31⟩) (by decide) (by decide)⟩

/-! ## The vault and frontmatter model (Obsidian store, as the services use it) -/

/-- A markdown file descriptor (`TFile`): `path` inside the vault and
`basename` (file name without folders and extension). -/
structure VFile where
  path : String
  basename : String
  deriving DecidableEq, Repr

/-- The vault's markdown files, in `vault.getMarkdownFiles()` order. -/
abbrev Vault := List VFile

/-- A frontmatter value as the services store them: a plain string (the link
fields), the `date-range` object (`{start, end}`), or the `child-notes`
string array. -/
inductive FmValue
  | str (s : String)
  | range (start stop : String)
  | list (xs : List String)
  deriving DecidableEq, Repr

/-- JS truthiness of `frontmatter[key]`: absent (`undefined`) and the empty
string are falsy; every other string, and objects and arrays (even empty),
are truthy. -/
def fmTruthy : Option FmValue → Bool
  | none => false
  | some (.str s) => !(s == "")
  | some (.range _ _) => true
  | some (.list _) => true

/-- A frontmatter block: ordered key/value entries (JS object). -/
abbrev Frontmatter := List (String × FmValue)

def fmLookup (fm : Frontmatter) (k : String) : Option FmValue :=
  (fm.find? (fun p => p.1 == k)).map (fun p => p.2)

/-- JS property assignment: overwrite in place when the key exists (keys are
unique in a JS object, so replacing the first occurrence suffices), append
otherwise. -/
def fmSet : Frontmatter → String → FmValue → Frontmatter
  | [], k, v => [(k, v)]
  | p :: rest, k, v => if p.1 == k then (k, v) :: rest else p :: fmSet rest k v

/-- JS `delete frontmatter[key]`. -/
def fmDelete (fm : Frontmatter) (k : String) : Frontmatter :=
  fm.filter (fun p => !(p.1 == k))

/-- `NoteStream` configuration record from `src/types.ts`. -/
structure NoteStream where
  id : String
  name : String
  folderPath : String
  noteType : NoteType
  dateFormat : Format
  autoLinking : Bool
  overwriteExisting : Bool
  beforeFieldName : String
  afterFieldName : String
  enableBelongingNotes : Bool
  belongingNoteFolder : String
  belongingNoteType : NoteType
  belongingNoteDateFormat : Format
  templatePath : String
  deriving Repr

/-- JS `String.prototype.split(sep)` for a single-character separator, on
character lists (like `splitDash`, but with the separator as a parameter). -/
def splitOnChar (sep : Char) : List Char → List (List Char)
  | [] => [[]]
  | c :: rest =>
    if c = sep then [] :: splitOnChar sep rest
    else
      match splitOnChar sep rest with
      | [] => [[c]]
      | p :: ps => (c :: p) :: ps

/-- Joining with a separator, the inverse of `splitOnChar`. -/
def joinWith (sep : Char) : List (List Char) → List Char
  | [] => []
  | [p] => p
  | p :: q :: ps => p ++ sep :: joinWith sep (q :: ps)

/-- JS `String.prototype.startsWith` (on the character lists, so that it
evaluates by kernel reduction). -/
def jsStartsWith (s pre : String) : Bool := pre.data.isPrefixOf s.data

/-- Substring occurrence on character lists (`""` occurs in everything). -/
def listContainsSub : List Char → List Char → Bool
  | [], sub => sub.isEmpty
  | c :: t, sub => sub.isPrefixOf (c :: t) || listContainsSub t sub

/-- JS `String.prototype.includes`. -/
def jsIncludes (s sub : String) : Bool := listContainsSub s.data sub.data

/-- Replace the first occurrence of `pat` (JS `replace` with a string
pattern); an empty pattern inserts `rep` at the start, as in JS. -/
def listReplaceFirst : List Char → List Char → List Char → List Char
  | [], pat, rep => if pat.isEmpty then rep else []
  | c :: t, pat, rep =>
    if pat.isPrefixOf (c :: t) then rep ++ (c :: t).drop pat.length
    else c :: listReplaceFirst t pat rep

/-- JS `String.prototype.replace` with a string pattern: replaces only the
FIRST occurrence (or nothing when the pattern does not occur). -/
def jsReplaceFirst (s pat rep : String) : String :=
  String.mk (listReplaceFirst s.data pat.data rep.data)

/-- `vault.getAbstractFileByPath` restricted to markdown files: a folder or
missing path gives `none` (so the `instanceof TFile` checks fail). -/
def getAbstractFileByPath (vault : Vault) (p : String) : Option VFile :=
  vault.find? (fun f => f.path == p)

/-- Moment arithmetic lifted to possibly-invalid moments: stepping an invalid
moment yields an invalid moment. -/
def getPreviousDateM : MVal → NoteType → MVal
  | .invalid, _ => .invalid
  | .valid d, t => .valid (getPreviousDate d t)

def getNextDateM : MVal → NoteType → MVal
  | .invalid, _ => .invalid
  | .valid d, t => .valid (getNextDate d t)

def getBelongingDateM : MVal → NoteType → NoteType → MVal
  | .invalid, _, _ => .invalid
  | .valid d, ct, pt => .valid (getBelongingDate d ct pt)

/-- `getChildDateRange` on a possibly-invalid parent moment: the `switch`
still runs (returning `null` only in the `default` branch), producing a range
of invalid moments from an invalid input. -/
def getChildDateRangeM (p : MVal) (parentType childType : NoteType) : Option (MVal × MVal) :=
  match p with
  | .valid d => (getChildDateRange d parentType childType).map
      (fun r => (.valid r.start, .valid r.stop))
  | .invalid =>
    match parentType with
    | .day => none
    | _ => some (.invalid, .invalid)

/-- `a.isSameOrAfter(b)`: false whenever either moment is invalid. -/
def mSameOrAfter : MVal → MVal → Bool
  | .valid a, .valid b => decide (toRD b ≤ toRD a)
  | _, _ => false

/-- `a.isSameOrBefore(b)`: false whenever either moment is invalid. -/
def mSameOrBefore : MVal → MVal → Bool
  | .valid a, .valid b => decide (toRD a ≤ toRD b)
  | _, _ => false

/-! ## NoteManager (src/services/NoteManager.ts) -/

/-- The neighbor lookup inside `updateNoteLinks`: start from the expected
path `folderPath/noteName.md`, then take the path of the first vault file
whose basename equals the expected name and whose path starts with the
folderPath STRING (no trailing slash is appended by the source). -/
def findNeighborPath (vault : Vault) (folderPath noteName : String) : String :=
  match vault.find? (fun f => f.basename == noteName && jsStartsWith f.path folderPath) with
  | some f => f.path
  | none => folderPath ++ "/" ++ noteName ++ ".md"

/-- One direction of the `processFrontMatter` callback of `updateNoteLinks`:
when `overwriteExisting` is set or the field is falsy, write `[[path|name]]`
if the neighbor exists, else delete a truthy stale field; otherwise leave the
field untouched. -/
def updateLinkField (vault : Vault) (stream : NoteStream) (fieldName noteName : String)
    (fm : Frontmatter) : Frontmatter :=
  if stream.overwriteExisting || !(fmTruthy (fmLookup fm fieldName)) then
    let notePath := findNeighborPath vault stream.folderPath noteName
    if (getAbstractFileByPath vault notePath).isSome then
      fmSet fm fieldName (.str ("[[" ++ notePath ++ "|" ++ noteName ++ "]]"))
    else if fmTruthy (fmLookup fm fieldName) then
      fmDelete fm fieldName
    else fm
  else fm

/-- The `processFrontMatter` callback of `updateNoteLinks`: the before-field
update followed by the after-field update. -/
def updateLinksFm (vault : Vault) (stream : NoteStream) (prevNoteName nextNoteName : String)
    (fm : Frontmatter) : Frontmatter :=
  updateLinkField vault stream stream.afterFieldName nextNoteName
    (updateLinkField vault stream stream.beforeFieldName prevNoteName fm)

/-- `updateNoteLinks`, as a function from the file's current frontmatter to
the frontmatter after the operation (the early-return validation paths leave
it unchanged; the re-entrancy flag is modelled separately by
`updateNoteLinksTrace`). -/
def updateNoteLinks (vault : Vault) (file : VFile) (stream : NoteStream)
    (fm : Frontmatter) : Frontmatter :=
  if stream.folderPath = "" then fm
  else
    match parseDateFromFilename file.basename stream.dateFormat with
    | none => fm
    | some dv =>
      let prevNoteName := formatDateForFilename (getPreviousDateM dv stream.noteType)
        stream.dateFormat
      let nextNoteName := formatDateForFilename (getNextDateM dv stream.noteType)
        stream.dateFormat
      if prevNoteName = "" || nextNoteName = "" then fm
      else updateLinksFm vault stream prevNoteName nextNoteName fm

/-- Observable events of one `updateNoteLinks` call, for the re-entrancy
guard's lifecycle.  `settleDelay` stands for a `setTimeout` delay (the repo
uses `setTimeout` elsewhere); the current `updateNoteLinks` emits none. -/
inductive UEvent
  | blockedByGuard
  | noticeShown
  | guardSet
  | patchRequested
  | patchCompleted
  | settleDelay (ms : Nat)
  | guardCleared
  deriving DecidableEq, Repr

/-- The event trace of one `updateNoteLinks` call, given the state of the
`isUpdating` flag on entry: an in-flight call returns immediately; validation
failures notify and return; otherwise the flag is set, the frontmatter patch
is awaited, the success notice fires, and the `finally` block clears the
flag at once. -/
def updateNoteLinksTrace (isUpdating : Bool) (file : VFile) (stream : NoteStream) :
    List UEvent :=
  if isUpdating then [.blockedByGuard]
  else if stream.folderPath = "" then [.noticeShown]
  else
    match parseDateFromFilename file.basename stream.dateFormat with
    | none => [.noticeShown]
    | some _ => [.guardSet, .patchRequested, .patchCompleted, .noticeShown, .guardCleared]

/-- Does a trace contain any settling delay? -/
def hasSettle : List UEvent → Bool
  | [] => false
  | .settleDelay _ :: _ => true
  | _ :: r => hasSettle r

/-- The `handleNoteRename` per-field update: if the field's string value
contains the old basename, replace the first occurrence of the exact text
`[[oldBasename]]` by `[[newBasename]]`.  (Non-string values never occur in
link fields; JS would throw on them.) -/
def renameField (oldBasename newBasename : String) (fm : Frontmatter) (field : String) :
    Frontmatter :=
  match fmLookup fm field with
  | some (.str sv) =>
    if jsIncludes sv oldBasename then
      fmSet fm field (.str (jsReplaceFirst sv ("[[" ++ oldBasename ++ "]]")
        ("[[" ++ newBasename ++ "]]")))
    else fm
  | _ => fm

/-- The `handleNoteRename` callback for one note: before-field then
after-field. -/
def handleNoteRenameNote (stream : NoteStream) (oldBasename newBasename : String)
    (fm : Frontmatter) : Frontmatter :=
  renameField oldBasename newBasename
    (renameField oldBasename newBasename fm stream.beforeFieldName) stream.afterFieldName

/-- `oldPath.split('/').pop()?.split('.')[0]`. -/
def oldBasenameOf (oldPath : String) : String :=
  String.mk ((splitOnChar '.' ((splitOnChar '/' oldPath.data).getLastD [])).headD [])

/-- `handleNoteRename` over the whole store: for every stream whose
folderPath is a string prefix of the old path, rewrite the two link fields
of every note whose path starts with the folderPath. -/
def handleNoteRename (streams : List NoteStream) (newFile : VFile) (oldPath : String)
    (notes : List (VFile × Frontmatter)) : List (VFile × Frontmatter) :=
  streams.foldl (fun acc stream =>
    if !(jsStartsWith oldPath stream.folderPath) then acc
    else
      let ob := oldBasenameOf oldPath
      if ob = "" then acc
      else acc.map (fun nf =>
        if jsStartsWith nf.1.path stream.folderPath then
          (nf.1, handleNoteRenameNote stream ob newFile.basename nf.2)
        else nf)) notes

/-! ## BelongingNoteManager (src/services/BelongingNoteManager.ts) -/

/-- The belonging-note lookup in `createOrUpdateBelongingNote` (lines 42-50):
default path `belongingFolder/name.md`, overridden by the first vault file
with the right basename whose path starts with the belongingFolder STRING
and is not the default path itself. -/
def findBelongingPath (vault : Vault) (belongingFolder belongingNoteName : String) : String :=
  let p0 := belongingFolder ++ "/" ++ belongingNoteName ++ ".md"
  match vault.find? (fun f => f.basename == belongingNoteName
      && jsStartsWith f.path belongingFolder && !(f.path == p0)) with
  | some f => f.path
  | none => p0

/-- The child-candidate scan of `updateBelongingNoteContent`: every vault
file whose path equals the stream folder or starts with `folderPath + "/"`
(i.e. the WHOLE subtree, not only direct children), and whose basename
parses into a date inside the range. -/
def childCandidates (vault : Vault) (stream : NoteStream) (lo hi : MVal) : List VFile :=
  vault.filter (fun file =>
    (file.path == stream.folderPath || jsStartsWith file.path (stream.folderPath ++ "/")) &&
    (match parseDateFromFilename file.basename stream.dateFormat with
     | some dte => mSameOrAfter dte lo && mSameOrBefore dte hi
     | none => false))

/-- Sort key of the child-note comparator
(`dateA.valueOf() - dateB.valueOf()`); on the lists the code sorts every
basename parses to a valid date, so the rata-die number is the value order.
Files that fail to parse tie (comparator 0); they are keyed 0 here. -/
def childKey (stream : NoteStream) (f : VFile) : Int :=
  match parseDateFromFilename f.basename stream.dateFormat with
  | some (.valid d) => toRD d
  | _ => 0

def childLe (stream : NoteStream) (a b : VFile) : Bool :=
  decide (childKey stream a ≤ childKey stream b)

/-- Stable insertion into a sorted list: the new element goes after every
element that compares `le` to it, so elements comparing equal keep their
original relative order. -/
def insertSorted (le : VFile → VFile → Bool) (x : VFile) : List VFile → List VFile
  | [] => [x]
  | y :: ys => if le y x then y :: insertSorted le x ys else x :: y :: ys

/-- Stable sort (JS `Array.prototype.sort` is stable): fold the input from
the left, inserting each element after its equals. -/
def stableSort (le : VFile → VFile → Bool) (l : List VFile) : List VFile :=
  l.foldl (fun acc x => insertSorted le x acc) []

/-- The sorted child list (`childNotes.sort(...)`). -/
def sortedChildren (vault : Vault) (stream : NoteStream) (lo hi : MVal) : List VFile :=
  stableSort (childLe stream) (childCandidates vault stream lo hi)

/-- The link text written for each child note:
`[[path-without-first-.md|basename]]`. -/
def childLink (f : VFile) : String :=
  "[[" ++ jsReplaceFirst f.path ".md" "" ++ "|" ++ f.basename ++ "]]"

/-- `updateBelongingNoteContent` as a function on the belonging note's
frontmatter: no-op when the belonging basename does not parse or the
granularity has no range; otherwise overwrite `date-range`, drop a truthy
`child-notes`, and write the sorted child list. -/
def updateBelongingNoteContent (vault : Vault) (belongingFile : VFile) (stream : NoteStream)
    (fm : Frontmatter) : Frontmatter :=
  match parseDateFromFilename belongingFile.basename stream.belongingNoteDateFormat with
  | none => fm
  | some bd =>
    match getChildDateRangeM bd stream.belongingNoteType stream.noteType with
    | none => fm
    | some (lo, hi) =>
      let startStr := formatDateForFilename lo stream.dateFormat
      let endStr := formatDateForFilename hi stream.dateFormat
      let fm1 := fmSet fm "date-range" (.range startStr endStr)
      let fm2 := if fmTruthy (fmLookup fm1 "child-notes") then fmDelete fm1 "child-notes"
        else fm1
      fmSet fm2 "child-notes" (.list ((sortedChildren vault stream lo hi).map childLink))

/-! ## Frontmatter lemmas -/

theorem beq_false_of_ne {a b : String} (h : a ≠ b) : (a == b) = false := by
  simpa using h

theorem fmLookup_fmSet_self (fm : Frontmatter) (k : String) (v : FmValue) :
    fmLookup (fmSet fm k v) k = some v := by
  induction fm with
  | nil => simp [fmSet, fmLookup, List.find?]
  | cons p rest ih =>
    by_cases hp : p.1 = k
    · simp [fmSet, hp, fmLookup, List.find?]
    · simp only [fmSet, beq_false_of_ne hp, Bool.false_eq_true, if_false]
      simp only [fmLookup, List.find?, beq_false_of_ne hp] at ih ⊢
      exact ih

theorem fmLookup_fmSet_other (fm : Frontmatter) {k k' : String} (v : FmValue)
    (h : k' ≠ k) : fmLookup (fmSet fm k v) k' = fmLookup fm k' := by
  induction fm with
  | nil => simp [fmSet, fmLookup, List.find?, beq_false_of_ne (Ne.symm h)]
  | cons p rest ih =>
    by_cases hp : p.1 = k
    · have hp' : (p.1 == k) = true := by simp [hp]
      have hpk : (p.1 == k') = false := by
        apply beq_false_of_ne
        rw [hp]
        exact Ne.symm h
      simp only [fmSet, hp', if_true, fmLookup, List.find?,
        beq_false_of_ne (Ne.symm h), hpk]
    · simp only [fmSet, beq_false_of_ne hp, Bool.false_eq_true, if_false]
      by_cases hq : p.1 = k'
      · simp [fmLookup, List.find?, hq]
      · simp only [fmLookup, List.find?, beq_false_of_ne hq] at ih ⊢
        exact ih

theorem fmLookup_fmDelete_other (fm : Frontmatter) {k k' : String}
    (h : k' ≠ k) : fmLookup (fmDelete fm k) k' = fmLookup fm k' := by
  induction fm with
  | nil => rfl
  | cons p rest ih =>
    by_cases hp : p.1 = k
    · have hp' : (p.1 == k) = true := by simp [hp]
      have hpk : (p.1 == k') = false := by
        apply beq_false_of_ne
        rw [hp]
        exact Ne.symm h
      simp only [fmDelete, List.filter, hp', Bool.not_true]
      simp only [fmDelete] at ih
      simp only [fmLookup, List.find?, hpk] at ih ⊢
      exact ih
    · simp only [fmDelete, List.filter, beq_false_of_ne hp, Bool.not_false]
      by_cases hq : p.1 = k'
      · simp [fmLookup, List.find?, hq]
      · simp only [fmDelete] at ih
        simp only [fmLookup, List.find?, beq_false_of_ne hq] at ih ⊢
        exact ih

/-! ## Shared example fixtures: a daily stream in folder `J` -/

/-- A day-granularity stream in folder `J`, `YYYY-MM-DD` names,
non-destructive overwrite policy, monthly belonging notes. -/
def exStream : NoteStream :=
  { id := "s1", name := "Journal", folderPath := "J", noteType := .day,
    dateFormat := .fmtYMD, autoLinking := true, overwriteExisting := false,
    beforeFieldName := "before", afterFieldName := "after",
    enableBelongingNotes := true, belongingNoteFolder := "J",
    belongingNoteType := .month, belongingNoteDateFormat := .fmtYM,
    templatePath := "" }

/-! ## C7: non-destructive overwrite -/

theorem updateLinkField_frozen (vault : Vault) (stream : NoteStream)
    {fieldName : String} (noteName : String) (fm : Frontmatter)
    (how : stream.overwriteExisting = false)
    (hT : fmTruthy (fmLookup fm fieldName) = true) :
    updateLinkField vault stream fieldName noteName fm = fm := by
  unfold updateLinkField
  rw [how, hT]
  simp

theorem updateLinkField_other (vault : Vault) (stream : NoteStream)
    {fieldName : String} (noteName : String) (fm : Frontmatter) {k : String}
    (hk : k ≠ fieldName) :
    fmLookup (updateLinkField vault stream fieldName noteName fm) k = fmLookup fm k := by
  simp only [updateLinkField]
  split_ifs with g1 g2 g3
  · exact fmLookup_fmSet_other fm _ hk
  · exact fmLookup_fmDelete_other fm hk
  · rfl
  · rfl

/-- C7 (amended): with `overwriteExisting = false`, a link field that is
present with a truthy (non-empty) value is left exactly unchanged by
`updateNoteLinks`, even when it references a non-existent document.  (A
field present with an empty-string value is falsy in JS and is recomputed —
see the counterexample.) -/
theorem claim_C7 (vault : Vault) (file : VFile) (stream : NoteStream) (fm : Frontmatter)
    (how : stream.overwriteExisting = false) :
    (fmTruthy (fmLookup fm stream.beforeFieldName) = true →
      fmLookup (updateNoteLinks vault file stream fm) stream.beforeFieldName
        = fmLookup fm stream.beforeFieldName) ∧
    (fmTruthy (fmLookup fm stream.afterFieldName) = true →
      fmLookup (updateNoteLinks vault file stream fm) stream.afterFieldName
        = fmLookup fm stream.afterFieldName) := by
  constructor
  · intro hB
    simp only [updateNoteLinks]
    split_ifs with hfp
    · rfl
    · cases hpd : parseDateFromFilename file.basename stream.dateFormat with
      | none => rfl
      | some dv =>
        simp only []
        split_ifs with hname
        · rfl
        · unfold updateLinksFm
          by_cases hba : stream.beforeFieldName = stream.afterFieldName
          · rw [updateLinkField_frozen vault stream _ fm how hB,
              updateLinkField_frozen vault stream _ fm how (by rw [← hba]; exact hB)]
          · rw [updateLinkField_frozen vault stream _ fm how hB]
            exact updateLinkField_other vault stream _ fm hba
  · intro hA
    simp only [updateNoteLinks]
    split_ifs with hfp
    · rfl
    · cases hpd : parseDateFromFilename file.basename stream.dateFormat with
      | none => rfl
      | some dv =>
        simp only []
        split_ifs with hname
        · rfl
        · unfold updateLinksFm
          by_cases hba : stream.beforeFieldName = stream.afterFieldName
          · rw [updateLinkField_frozen vault stream _ fm how (by rw [hba]; exact hA),
              updateLinkField_frozen vault stream _ fm how hA]
          · have hinner : fmLookup
                (updateLinkField vault stream stream.beforeFieldName
                  (formatDateForFilename (getPreviousDateM dv stream.noteType)
                    stream.dateFormat) fm)
                stream.afterFieldName = fmLookup fm stream.afterFieldName :=
              updateLinkField_other vault stream _ fm (fun he => hba he.symm)
            rw [updateLinkField_frozen vault stream _ _ how (by rw [hinner]; exact hA),
              hinner]

/-- C7 counterexample: with `overwriteExisting = false` and the before-field
PRESENT but holding the empty string, `updateNoteLinks` recomputes it (the JS
guard tests truthiness, not presence): the field's value changes. -/
theorem claim_C7_counterexample :
    fmLookup [("before", FmValue.str "")] "before" = some (.str "") ∧
    exStream.overwriteExisting = false ∧
    fmLookup
      (updateNoteLinks [⟨"J/2024-01-01.md", "2024-01-01"⟩, ⟨"J/2024-01-02.md", "2024-01-02"⟩]
        ⟨"J/2024-01-02.md", "2024-01-02"⟩ exStream [("before", FmValue.str "")])
      "before" = some (.str "[[J/2024-01-01.md|2024-01-01]]") := by
  refine ⟨by decide, by decide, ?_⟩
  decide

/-- Witness for C7: a truthy before-field pointing at a non-existent document
survives `updateNoteLinks` unchanged. -/
theorem claim_C7_witness :
    fmTruthy (fmLookup [("before", FmValue.str "[[J/1999-01-01.md|1999-01-01]]")] "before")
      = true ∧
    fmLookup
      (updateNoteLinks [⟨"J/2024-01-02.md", "2024-01-02"⟩] ⟨"J/2024-01-02.md", "2024-01-02"⟩
        exStream [("before", FmValue.str "[[J/1999-01-01.md|1999-01-01]]")]) "before"
      = fmLookup [("before", FmValue.str "[[J/1999-01-01.md|1999-01-01]]")] "before" :=
  ⟨by decide,
    (claim_C7 [⟨"J/2024-01-02.md", "2024-01-02"⟩] ⟨"J/2024-01-02.md", "2024-01-02"⟩ exStream
      [("before", FmValue.str "[[J/1999-01-01.md|1999-01-01]]")] (by decide)).1 (by decide)⟩

/-! ## C10: folder matching is by string prefix, not subtree -/

/-- C10: the neighbor and belonging-note lookups match folder membership with
`path.startsWith(folderPath)` — a plain string prefix with no trailing
slash.  With stream folder `J` and a sibling folder `J2`, `updateNoteLinks`
on `J/2024-01-02.md` writes a before-link to `J2/2024-01-01.md`, a document
outside the stream's folder subtree, and `createOrUpdateBelongingNote`'s
lookup likewise resolves to a `J2/` path. -/
theorem claim_C10 :
    fmLookup
      (updateNoteLinks [⟨"J2/2024-01-01.md", "2024-01-01"⟩, ⟨"J/2024-01-02.md", "2024-01-02"⟩]
        ⟨"J/2024-01-02.md", "2024-01-02"⟩ exStream []) "before"
      = some (.str "[[J2/2024-01-01.md|2024-01-01]]") ∧
    jsStartsWith "J2/2024-01-01.md" ("J" ++ "/") = false ∧
    findBelongingPath [⟨"J2/2024-01.md", "2024-01"⟩] "J" "2024-01" = "J2/2024-01.md" ∧
    jsStartsWith "J2/2024-01.md" ("J" ++ "/") = false := by
  refine ⟨?_, by decide, by decide, by decide⟩
  decide

/-! ## C1: rename propagation never matches the links updateNoteLinks writes -/

/-- C1 (code bug): scenario 3 of the spec.  `updateNoteLinks` writes link
fields of the form `[[J/2024-01-02.md|2024-01-02]]`, but `handleNoteRename`
only replaces the exact text `[[oldBasename]]`.  After renaming
`J/2024-01-02.md` to `J/2024-01-02b.md`, both neighbors' fields are left
byte-for-byte unchanged (still referencing the old basename), although the
`includes(oldBasename)` guard did fire. -/
theorem claim_C1 :
    handleNoteRename [exStream] ⟨"J/2024-01-02b.md", "2024-01-02b"⟩ "J/2024-01-02.md"
      [(⟨"J/2024-01-01.md", "2024-01-01"⟩,
        [("after", FmValue.str "[[J/2024-01-02.md|2024-01-02]]")]),
       (⟨"J/2024-01-03.md", "2024-01-03"⟩,
        [("before", FmValue.str "[[J/2024-01-02.md|2024-01-02]]")])]
      = [(⟨"J/2024-01-01.md", "2024-01-01"⟩,
          [("after", FmValue.str "[[J/2024-01-02.md|2024-01-02]]")]),
         (⟨"J/2024-01-03.md", "2024-01-03"⟩,
          [("before", FmValue.str "[[J/2024-01-02.md|2024-01-02]]")])] ∧
    jsIncludes "[[J/2024-01-02.md|2024-01-02]]" "2024-01-02" = true ∧
    jsIncludes "[[J/2024-01-02.md|2024-01-02]]" "2024-01-02b" = false := by
  refine ⟨?_, by decide, by decide⟩
  decide

/-! ## C2: the child scan is recursive, not shallow -/

/-- C2 (code bug): `updateBelongingNoteContent` filters candidates with
`path.startsWith(folderPath + '/')`, which admits the whole subtree; its own
comment says "not in subfolders".  The document `J/sub/2024-01-02.md`, whose
immediate parent folder is `J/sub`, is included in the child list of the
monthly belonging note `J/2024-01.md`. -/
theorem claim_C2 :
    fmLookup
      (updateBelongingNoteContent [⟨"J/sub/2024-01-02.md", "2024-01-02"⟩]
        ⟨"J/2024-01.md", "2024-01"⟩ exStream []) "child-notes"
      = some (.list ["[[J/sub/2024-01-02|2024-01-02]]"]) ∧
    String.mk (joinWith '/' ((splitOnChar '/' "J/sub/2024-01-02.md".data).dropLast))
      = "J/sub" ∧
    "J/sub" ≠ exStream.folderPath := by
  refine ⟨?_, by decide, by decide⟩
  decide

/-! ## C9: the re-entrancy guard has no settling period -/

/-- C9 (amended): `updateNoteLinks` suppresses nested self-triggered
invocations via the `isUpdating` flag (an in-flight call returns without
touching the guard or issuing a patch), and the guard is cleared in the
`finally` block immediately after the awaited frontmatter patch completes:
no trace contains a settling delay, and the only events after a completed
patch are the success notice and the immediate guard clear. -/
theorem claim_C9 (b : Bool) (file : VFile) (stream : NoteStream) :
    updateNoteLinksTrace true file stream = [.blockedByGuard] ∧
    hasSettle (updateNoteLinksTrace b file stream) = false ∧
    (updateNoteLinksTrace b file stream = [.blockedByGuard] ∨
     updateNoteLinksTrace b file stream = [.noticeShown] ∨
     updateNoteLinksTrace b file stream
       = [.guardSet, .patchRequested, .patchCompleted, .noticeShown, .guardCleared]) := by
  refine ⟨rfl, ?_, ?_⟩
  · unfold updateNoteLinksTrace
    split_ifs with h1 h2
    · rfl
    · rfl
    · cases parseDateFromFilename file.basename stream.dateFormat <;> rfl
  · unfold updateNoteLinksTrace
    split_ifs with h1 h2
    · exact Or.inl rfl
    · exact Or.inr (Or.inl rfl)
    · cases parseDateFromFilename file.basename stream.dateFormat
      · exact Or.inr (Or.inl rfl)
      · exact Or.inr (Or.inr rfl)

/-- C9 counterexample: on a concrete valid call the guard is cleared directly
after the patch completes, with no settling delay anywhere in the trace —
refuting "released only after ... plus a short grace/settling period". -/
theorem claim_C9_counterexample :
    updateNoteLinksTrace false ⟨"J/2024-01-02.md", "2024-01-02"⟩ exStream
      = [.guardSet, .patchRequested, .patchCompleted, .noticeShown, .guardCleared] ∧
    hasSettle (updateNoteLinksTrace false ⟨"J/2024-01-02.md", "2024-01-02"⟩ exStream)
      = false := by
  decide

/-! ## C6: idempotent, fully-replaced aggregation fields -/

theorem mem_insertSorted {le : VFile → VFile → Bool} {x a : VFile} :
    ∀ {l : List VFile}, a ∈ insertSorted le x l → a = x ∨ a ∈ l := by
  intro l
  induction l with
  | nil =>
    intro h
    simp only [insertSorted, List.mem_singleton] at h
    exact Or.inl h
  | cons y ys ih =>
    intro h
    simp only [insertSorted] at h
    split_ifs at h with hle
    · rcases List.mem_cons.mp h with h | h
      · exact Or.inr (List.mem_cons.mpr (Or.inl h))
      · rcases ih h with h | h
        · exact Or.inl h
        · exact Or.inr (List.mem_cons.mpr (Or.inr h))
    · rcases List.mem_cons.mp h with h | h
      · exact Or.inl h
      · exact Or.inr h

theorem pairwise_insertSorted (le : VFile → VFile → Bool)
    (htrans : ∀ a b c, le a b = true → le b c = true → le a c = true)
    (htot : ∀ a b, le a b = true ∨ le b a = true) (x : VFile) :
    ∀ (l : List VFile), List.Pairwise (fun a b => le a b = true) l →
      List.Pairwise (fun a b => le a b = true) (insertSorted le x l) := by
  intro l
  induction l with
  | nil =>
    intro _
    simp [insertSorted]
  | cons y ys ih =>
    intro h
    rw [List.pairwise_cons] at h
    obtain ⟨hy, hys⟩ := h
    simp only [insertSorted]
    split_ifs with hle
    · rw [List.pairwise_cons]
      refine ⟨?_, ih hys⟩
      intro a ha
      rcases mem_insertSorted ha with rfl | ha
      · exact hle
      · exact hy a ha
    · have hxy : le x y = true := by
        rcases htot y x with h | h
        · exact absurd h hle
        · exact h
      rw [List.pairwise_cons]
      refine ⟨?_, List.pairwise_cons.mpr ⟨hy, hys⟩⟩
      intro a ha
      rcases List.mem_cons.mp ha with rfl | ha
      · exact hxy
      · exact htrans x y a hxy (hy a ha)

theorem pairwise_stableSort (le : VFile → VFile → Bool)
    (htrans : ∀ a b c, le a b = true → le b c = true → le a c = true)
    (htot : ∀ a b, le a b = true ∨ le b a = true) (l : List VFile) :
    List.Pairwise (fun a b => le a b = true) (stableSort le l) := by
  unfold stableSort
  suffices haux : ∀ (rest acc : List VFile), List.Pairwise (fun a b => le a b = true) acc →
      List.Pairwise (fun a b => le a b = true)
        (rest.foldl (fun acc x => insertSorted le x acc) acc) by
    exact haux l [] (by simp)
  intro rest
  induction rest with
  | nil => intro acc h; exact h
  | cons x xs ih =>
    intro acc h
    exact ih _ (pairwise_insertSorted le htrans htot x acc h)

/-- C6: when `updateBelongingNoteContent` is active (the belonging basename
parses and the granularity pairing has a range), the `date-range` and
`child-notes` fields are fully replaced with values computed from the live
vault only — so a second call with no intervening vault change produces
identical values for both fields — and the child list is ascending in parsed
date. -/
theorem claim_C6 (vault : Vault) (bfile : VFile) (stream : NoteStream) (fm : Frontmatter)
    (bd lo hi : MVal)
    (hp : parseDateFromFilename bfile.basename stream.belongingNoteDateFormat = some bd)
    (hr : getChildDateRangeM bd stream.belongingNoteType stream.noteType = some (lo, hi)) :
    fmLookup (updateBelongingNoteContent vault bfile stream fm) "date-range"
      = some (.range (formatDateForFilename lo stream.dateFormat)
          (formatDateForFilename hi stream.dateFormat)) ∧
    fmLookup (updateBelongingNoteContent vault bfile stream fm) "child-notes"
      = some (.list ((sortedChildren vault stream lo hi).map childLink)) ∧
    fmLookup (updateBelongingNoteContent vault bfile stream
        (updateBelongingNoteContent vault bfile stream fm)) "date-range"
      = fmLookup (updateBelongingNoteContent vault bfile stream fm) "date-range" ∧
    fmLookup (updateBelongingNoteContent vault bfile stream
        (updateBelongingNoteContent vault bfile stream fm)) "child-notes"
      = fmLookup (updateBelongingNoteContent vault bfile stream fm) "child-notes" ∧
    List.Pairwise (fun a b => childKey stream a ≤ childKey stream b)
      (sortedChildren vault stream lo hi) := by
  have hg : ∀ fm' : Frontmatter,
      fmLookup (updateBelongingNoteContent vault bfile stream fm') "date-range"
        = some (.range (formatDateForFilename lo stream.dateFormat)
            (formatDateForFilename hi stream.dateFormat)) ∧
      fmLookup (updateBelongingNoteContent vault bfile stream fm') "child-notes"
        = some (.list ((sortedChildren vault stream lo hi).map childLink)) := by
    intro fm'
    unfold updateBelongingNoteContent
    rw [hp]
    simp only []
    rw [hr]
    simp only []
    have hne : ("date-range" : String) ≠ "child-notes" := by decide
    constructor
    · rw [fmLookup_fmSet_other _ _ hne]
      split_ifs with ht
      · rw [fmLookup_fmDelete_other _ hne]
        exact fmLookup_fmSet_self _ _ _
      · exact fmLookup_fmSet_self _ _ _
    · exact fmLookup_fmSet_self _ _ _
  have hsorted : List.Pairwise (fun a b => childKey stream a ≤ childKey stream b)
      (sortedChildren vault stream lo hi) := by
    have h1 := pairwise_stableSort (childLe stream)
      (fun a b c hab hbc => by
        simp only [childLe, decide_eq_true_eq] at hab hbc ⊢
        omega)
      (fun a b => by
        simp only [childLe, decide_eq_true_eq]
        omega)
      (childCandidates vault stream lo hi)
    exact h1.imp (fun h => by simpa [childLe, decide_eq_true_eq] using h)
  exact ⟨(hg fm).1, (hg fm).2,
    ((hg (updateBelongingNoteContent vault bfile stream fm)).1).trans ((hg fm).1).symm,
    ((hg (updateBelongingNoteContent vault bfile stream fm)).2).trans ((hg fm).2).symm,
    hsorted⟩

/-- Witness for C6: the monthly belonging note `J/2024-01.md` over a vault
with two January children; both fields are produced, identical across two
runs, with the children in ascending date order. -/
theorem claim_C6_witness :
    fmLookup (updateBelongingNoteContent
        [⟨"J/2024-01-05.md", "2024-01-05"⟩, ⟨"J/2024-01-02.md", "2024-01-02"⟩]
        ⟨"J/2024-01.md", "2024-01"⟩ exStream []) "date-range"
      = some (.range (formatDateForFilename (.valid ⟨2024, 0, 1⟩) exStream.dateFormat)
          (formatDateForFilename (.valid ⟨2024, 0, 31⟩) exStream.dateFormat)) ∧
    fmLookup (updateBelongingNoteContent
        [⟨"J/2024-01-05.md", "2024-01-05"⟩, ⟨"J/2024-01-02.md", "2024-01-02"⟩]
        ⟨"J/2024-01.md", "2024-01"⟩ exStream []) "child-notes"
      = some (.list ((sortedChildren
          [⟨"J/2024-01-05.md", "2024-01-05"⟩, ⟨"J/2024-01-02.md", "2024-01-02"⟩]
          exStream (.valid ⟨2024, 0, 1⟩) (.valid ⟨2024, 0, 31⟩)).map childLink)) ∧
    fmLookup (updateBelongingNoteContent
        [⟨"J/2024-01-05.md", "2024-01-05"⟩, ⟨"J/2024-01-02.md", "2024-01-02"⟩]
        ⟨"J/2024-01.md", "2024-01"⟩ exStream
        (updateBelongingNoteContent
          [⟨"J/2024-01-05.md", "2024-01-05"⟩, ⟨"J/2024-01-02.md", "2024-01-02"⟩]
          ⟨"J/2024-01.md", "2024-01"⟩ exStream [])) "date-range"
      = fmLookup (updateBelongingNoteContent
          [⟨"J/2024-01-05.md", "2024-01-05"⟩, ⟨"J/2024-01-02.md", "2024-01-02"⟩]
          ⟨"J/2024-01.md", "2024-01"⟩ exStream []) "date-range" ∧
    fmLookup (updateBelongingNoteContent
        [⟨"J/2024-01-05.md", "2024-01-05"⟩, ⟨"J/2024-01-02.md", "2024-01-02"⟩]
        ⟨"J/2024-01.md", "2024-01"⟩ exStream
        (updateBelongingNoteContent
          [⟨"J/2024-01-05.md", "2024-01-05"⟩, ⟨"J/2024-01-02.md", "2024-01-02"⟩]
          ⟨"J/2024-01.md", "2024-01"⟩ exStream [])) "child-notes"
      = fmLookup (updateBelongingNoteContent
          [⟨"J/2024-01-05.md", "2024-01-05"⟩, ⟨"J/2024-01-02.md", "2024-01-02"⟩]
          ⟨"J/2024-01.md", "2024-01"⟩ exStream []) "child-notes" ∧
    List.Pairwise (fun a b => childKey exStream a ≤ childKey exStream b)
      (sortedChildren [⟨"J/2024-01-05.md", "2024-01-05"⟩, ⟨"J/2024-01-02.md", "2024-01-02"⟩]
        exStream (.valid ⟨2024, 0, 1⟩) (.valid ⟨2024, 0, 31⟩)) :=
  claim_C6 [⟨"J/2024-01-05.md", "2024-01-05"⟩, ⟨"J/2024-01-02.md", "2024-01-02"⟩]
    ⟨"J/2024-01.md", "2024-01"⟩ exStream [] (.valid ⟨2024, 0, 1⟩)
    (.valid ⟨2024, 0, 1⟩) (.valid ⟨2024, 0, 31⟩) (by decide) (by decide)

end Chronolinker
